import Mathlib

/-!
Verification development for the Graphoria git-client backend
(`src-tauri/src/lib.rs`, `src-tauri/src/commands/{status,conflicts,interactive_rebase}.rs`).

The Rust code orchestrates an external `git` binary.  We embed it shallowly:

* strings and byte buffers are both modelled as `List Char` (`Str`); the code
  only ever inspects bytes through `from_utf8_lossy`, and every input our
  theorems touch is ASCII, where that conversion is the identity;
* every subprocess invocation and filesystem read is a field of a `Repo`
  oracle record: the embedded functions are pure functions of that oracle,
  translated statement-by-statement from the Rust source;
* fallible Rust functions returning `Result<T, String>` become
  `Except Str T`; mutating commands additionally return the ordered list of
  mutating `Effect`s they performed;
* `HashMap` values are modelled as association lists with insert-replace
  semantics; where the Rust code iterates a `HashMap` (whose order is
  unspecified) the model iterates in insertion order.
-/

/-- Characters are bytes here; strings and byte buffers are `List Char`. -/
abbrev Str := List Char

/-- Whitespace test used by the `trim` family (covers the ASCII whitespace
Rust's `char::is_whitespace` recognises on the inputs we model). -/
def isWS (c : Char) : Bool :=
  c == ' ' || c == '\t' || c == '\n' || c == '\r'

/-- Model of Rust `str::trim`. -/
def trimL (s : Str) : Str :=
  ((s.dropWhile isWS).reverse.dropWhile isWS).reverse

/-- Model of Rust `str::trim_end`. -/
def trimRightL (s : Str) : Str :=
  (s.reverse.dropWhile isWS).reverse

/-- ASCII lower-casing of one character (Rust `char::to_lowercase` on ASCII). -/
def lowChar (c : Char) : Char :=
  if 65 ≤ c.toNat ∧ c.toNat ≤ 90 then Char.ofNat (c.toNat + 32) else c

/-- Model of Rust `str::to_lowercase` (ASCII inputs). -/
def lowerL (s : Str) : Str := s.map lowChar

/-- Boolean prefix test on char lists (Rust `str::starts_with`). -/
def startsWithL (p s : Str) : Bool :=
  decide (p <+: s)

/-- Boolean substring test (Rust `str::contains`). -/
def containsSub (s pat : Str) : Bool :=
  decide (pat <:+: s)

/-- Split a char list on a separator character; the separator is dropped.
`splitOnChar c "a\te"` with `c = '\t'` gives `["a", "e"]`; an empty input
gives `[[]]`, matching the usual split semantics. -/
def splitOnChar (sep : Char) : Str → List Str
  | [] => [[]]
  | c :: rest =>
    let r := splitOnChar sep rest
    if c == sep then [] :: r
    else match r with
      | [] => [[c]]
      | h :: t => (c :: h) :: t

/-- Split on whitespace runs, dropping empty pieces
(Rust `str::split_whitespace`). -/
def splitWS (s : Str) : List Str :=
  (s.splitOnP (fun c => isWS c)).filter (fun p => p ≠ [])

/-- Model of Rust `str::lines`: split on `'\n'`, strip a trailing `'\r'` from
each line, and drop the final empty piece produced by a trailing newline. -/
def linesOf (s : Str) : List Str :=
  let parts := splitOnChar '\n' s
  let parts := match parts.reverse with
    | [] :: rest => rest.reverse
    | _ => parts
  parts.map (fun l => if l.getLast? = some '\r' then l.dropLast else l)

/-- Parse a decimal natural from a char list; `none` unless the input is one
or more digits (model of Rust `str::parse::<u8>` composed with the range
check, see `parseU8`). -/
def toNatL? (s : Str) : Option Nat :=
  if s = [] then none
  else if s.all (fun c => 48 ≤ c.toNat ∧ c.toNat ≤ 57) then
    some (s.foldl (fun acc c => 10 * acc + (c.toNat - 48)) 0)
  else none

/-- Model of Rust `"…".parse::<u8>().unwrap_or(0)`. -/
def parseU8 (s : Str) : Nat :=
  match toNatL? s with
  | some n => if n ≤ 255 then n else 0
  | none => 0

/-- Association-list lookup by key (model of `HashMap::get`). -/
def alookup [DecidableEq κ] (m : List (κ × α)) (k : κ) : Option α :=
  (m.find? (fun kv => kv.1 = k)).map (fun kv => kv.2)

/-- Association-list insert with replacement (model of `HashMap::insert`). -/
def ainsert [DecidableEq κ] (m : List (κ × α)) (k : κ) (v : α) : List (κ × α) :=
  if (m.find? (fun kv => kv.1 = k)).isSome then
    m.map (fun kv => if kv.1 = k then (k, v) else kv)
  else m ++ [(k, v)]

/-- Association-list insert keeping the first binding
(model of `HashMap::entry(k).or_insert(v)`). -/
def aorInsert [DecidableEq κ] (m : List (κ × α)) (k : κ) (v : α) : List (κ × α) :=
  if (m.find? (fun kv => kv.1 = k)).isSome then m else m ++ [(k, v)]

/-- Result of one completed subprocess: exit status, exit code when the
process terminated normally, and the captured output streams. -/
structure ProcOut where
  success : Bool
  code : Option Int
  stdout : Str
  stderr : Str
deriving Repr, DecidableEq

/-- Mutating actions a command can perform, in order: a git subcommand that
mutates the repository, or a direct filesystem mutation. -/
inductive Effect where
  | runGitCmd (args : List Str)
  | fsWrite (path : Str) (content : Str)
  | fsCreateDirs (path : Str)
  | fsRemove (path : Str)
deriving Repr, DecidableEq

/-- Model of `run_git` (`lib.rs:311`): non-zero exit becomes an error whose
message is the fixed prefix followed by the captured stderr text; success
returns stdout with trailing whitespace trimmed. -/
def runGitModel (o : ProcOut) : Except Str Str :=
  if o.success then Except.ok (trimRightL o.stdout)
  else Except.error ("git command failed: ".data ++ o.stderr)

/-- Model of `run_git_with_stdin` (`lib.rs:325`): the stdin payload is passed
to the subprocess (whose behaviour the `ProcOut` oracle captures); the
exit-code-to-error mapping is identical to `run_git`. -/
def runGitWithStdinModel (_stdinData : Str) (o : ProcOut) : Except Str Str :=
  if o.success then Except.ok (trimRightL o.stdout)
  else Except.error ("git command failed: ".data ++ o.stderr)

/-- Absolute-path test, Unix path semantics (Rust `Path::is_absolute`). -/
def isAbsolutePath (s : Str) : Bool :=
  startsWithL ("/".data) s

/-- Does the path contain a `..` component (Rust `Component::ParentDir`)? -/
def hasParentDirComponent (s : Str) : Bool :=
  (splitOnChar '/' s).any (fun c => c = "..".data)

/-- Model of `Path::new(repo).join(rel)` for a relative `rel`, Unix
semantics. -/
def joinPath (repo rel : Str) : Str :=
  if repo.getLast? = some '/' then repo ++ rel else repo ++ ("/".data) ++ rel

/-- Model of `safe_repo_join` (`lib.rs:414`): trim the caller-supplied path,
reject empty, absolute, and `..`-containing paths, otherwise join it onto the
repository path. -/
def safeRepoJoin (repoPath relPath : Str) : Except Str Str :=
  let rel := trimL relPath
  if rel = [] then Except.error ("path is empty".data)
  else if isAbsolutePath rel then Except.error ("path must be relative".data)
  else if hasParentDirComponent rel then
    Except.error ("path must not contain ".data ++ [Char.ofNat 39, '.', '.', Char.ofNat 39])
  else Except.ok (joinPath repoPath rel)

deriving instance DecidableEq for Except

/-- Result of reading a working-tree file (`std::fs::read`). -/
inductive ReadRes where
  | found (bytes : Str)
  | notFound
  | failed (msg : Str)
deriving Repr, DecidableEq

/-- Oracle for one repository: every subprocess invocation and filesystem
probe the embedded commands perform is a field here, so the commands become
pure functions of this record.  Fields correspond one-to-one to the external
calls in the Rust source. -/
structure Repo where
  /-- The repository path the command was invoked with. -/
  repoPath : Str
  /-- Outcome of `git rev-parse --is-inside-work-tree` (`ensure_is_git_worktree`). -/
  isWorktree : Bool
  /-- Per revision: does `git rev-parse -q --verify <rev>` succeed
  (`rev_exists`, `is_rebase_in_progress`, `is_merge_in_progress`)? -/
  revResolvable : Str → Bool
  /-- Does the `applying` marker file exist under the `rebase-apply`
  directory (`is_am_in_progress`)? -/
  amApplying : Bool
  /-- Output of `git diff --name-only --diff-filter=U` as a path list
  (`list_unmerged_files`; that helper swallows its own errors). -/
  unmergedFiles : List Str
  /-- `git status --porcelain -z --untracked-files=no`: `none` when the
  process could not be spawned, otherwise (exit success, raw stdout). -/
  statusZ : Option (Bool × Str)
  /-- `git ls-files -u -z`: `none` when the process could not be spawned,
  otherwise (exit success, raw stdout). -/
  lsFilesU : Option (Bool × Str)
  /-- Content fetch `git_show_path_bytes_or_empty rev path`.
  Modelled from the spec: that helper is not among the provided sources; the
  spec states each stage/revision content fetch treats a missing object as an
  empty, non-error result, so the oracle returns the bytes directly with `[]`
  for "absent". -/
  showBytes : Str → Str → Str
  /-- Does `git cat-file -e <rev>:<path>` succeed (`git_file_exists_at_rev`)? -/
  existsAtRev : Str → Str → Bool
  /-- `git diff --name-status -z -M20% HEAD <theirs>`: `none` when the spawn
  failed, otherwise (exit success, exit code, raw stdout). -/
  diffTheirs : Str → Option (Bool × Option Int × Str)
  /-- `std::fs::read` of a working-tree file, keyed by repo-relative path. -/
  workRead : Str → ReadRes
  /-- Generic `run_git`-style invocation keyed by argument list: `none` when
  the spawn failed, otherwise the completed process. -/
  run : List Str → Option ProcOut
  /-- `git ls-tree HEAD -- <paths>`: `some stdout` when spawned and exited
  successfully (the status-rename pass ignores every failure mode). -/
  lsTreeHead : Option Str
  /-- `git hash-object -- <paths>`: `some stdout` when spawned and exited
  successfully. -/
  hashObject : Option Str
  /-- Does a filesystem path exist (`Path::exists`)? -/
  fsExists : Str → Bool

/-- Model of `is_rebase_in_progress` (`lib.rs:682`): `REBASE_HEAD` resolves. -/
def isRebaseInProgress (r : Repo) : Bool :=
  r.revResolvable ("REBASE_HEAD".data)

/-- Model of `is_merge_in_progress` (`lib.rs:690`): `MERGE_HEAD` resolves. -/
def isMergeInProgress (r : Repo) : Bool :=
  r.revResolvable ("MERGE_HEAD".data)

/-- Modelled from the spec: `is_cherry_pick_in_progress` is not among the
provided sources (only its callers are); the spec says cherry-pick detection
probes whether the cherry-pick-head reference (`CHERRY_PICK_HEAD`) is
resolvable. -/
def isCherryPickInProgress (r : Repo) : Bool :=
  r.revResolvable ("CHERRY_PICK_HEAD".data)

/-- Model of `is_am_in_progress` (`conflicts.rs:17`): the `applying` marker
file exists under `rebase-apply`. -/
def isAmInProgress (r : Repo) : Bool :=
  r.amApplying

/-- Model of `detect_theirs_ref` (`conflicts.rs:200`): the first of
`MERGE_HEAD`, `CHERRY_PICK_HEAD`, `REBASE_HEAD` that resolves. -/
def detectTheirsRef (r : Repo) : Option Str :=
  if r.revResolvable ("MERGE_HEAD".data) then some ("MERGE_HEAD".data)
  else if r.revResolvable ("CHERRY_PICK_HEAD".data) then some ("CHERRY_PICK_HEAD".data)
  else if r.revResolvable ("REBASE_HEAD".data) then some ("REBASE_HEAD".data)
  else none

/-- NUL-split a raw stdout buffer into non-empty tokens
(the token collection loops in `parse_name_status_like_z` and
`parse_name_status_z`). -/
def tokensOfZ (s : Str) : List Str :=
  (splitOnChar (Char.ofNat 0) s).filter (fun t => t ≠ [])

/-- Model of the token loop of `parse_name_status_like_z`
(`conflicts.rs:209`): a status token starting with `R`/`C` consumes two
path tokens (old, new), any other status consumes one. -/
def parseNameStatusTokens : List Str → List (Str × Option Str × Str)
  | [] => []
  | t :: rest =>
    let status := trimL t
    if status = [] then parseNameStatusTokens rest
    else if startsWithL ("R".data) status || startsWithL ("C".data) status then
      match rest with
      | oldP :: newP :: rest2 =>
        if trimL newP ≠ [] then
          (status, (if trimL oldP = [] then none else some oldP), newP) ::
            parseNameStatusTokens rest2
        else parseNameStatusTokens rest2
      | _ => []
    else
      match rest with
      | p :: rest2 =>
        if trimL p ≠ [] then (status, none, p) :: parseNameStatusTokens rest2
        else parseNameStatusTokens rest2
      | [] => []

/-- Model of `detect_renames_against_theirs` (`conflicts.rs:256`): run the
rename-detecting diff of `HEAD` against the theirs reference, accept exit 0
or 1, and collect `old path → new path` for every `R*` record. -/
def detectRenamesAgainstTheirs (r : Repo) (theirsRef : Str) : List (Str × Str) :=
  match r.diffTheirs theirsRef with
  | none => []
  | some (succ, code, out) =>
    if succ || code = some 1 then
      (parseNameStatusTokens (tokensOfZ out)).foldl (fun m x =>
        if startsWithL ("R".data) x.1 then
          match x.2.1 with
          | some oldP =>
            if trimL oldP ≠ [] ∧ trimL x.2.2 ≠ [] then ainsert m oldP x.2.2 else m
          | none => m
        else m) []
    else []

/-- Model of the record loop of `parse_status_porcelain_z`
(`conflicts.rs:624`), producing `(path, status)` pairs in record order; a
record whose status pair contains `R`/`C` makes the loop skip the following
(secondary path) record. -/
def parseStatusRecordsAcc : List Str → List (Str × Str)
  | [] => []
  | rec :: rest =>
    if rec.length < 3 then parseStatusRecordsAcc rest
    else
      let status := rec.take 2
      let pathBytes := if 4 ≤ rec.length then rec.drop 3 else []
      if pathBytes = [] then parseStatusRecordsAcc rest
      else
        let c0 := rec.getD 0 ' '
        let c1 := rec.getD 1 ' '
        let kept := if trimL pathBytes ≠ [] then [(pathBytes, status)] else []
        if c0 == 'R' || c1 == 'R' || c0 == 'C' || c1 == 'C' then
          match rest with
          | [] => kept
          | _ :: rest2 => kept ++ parseStatusRecordsAcc rest2
        else
          kept ++ parseStatusRecordsAcc rest

/-- Model of `parse_status_porcelain_z` (`conflicts.rs:624`): NUL-split the
stdout and fold the records into a path-to-status map. -/
def parseStatusPorcelainZ (out : Str) : List (Str × Str) :=
  (parseStatusRecordsAcc (splitOnChar (Char.ofNat 0) out)).foldl
    (fun m ps => ainsert m ps.1 ps.2) []

/-- Join char-list pieces with a separator character (used to model Rust
`splitn(2, sep)`, which keeps the separator inside the second piece). -/
def joinWith (c : Char) : List Str → Str
  | [] => []
  | [x] => x
  | x :: xs => x ++ c :: joinWith c xs

/-- One record of `git ls-files -u -z` parsed to `(path, stage)`
(the per-record body of `parse_ls_files_unmerged_z`, `conflicts.rs:667`). -/
def lsFilesRecord (rec : Str) : Option (Str × Nat) :=
  if rec = [] then none
  else
    match splitOnChar '\t' rec with
    | meta :: r1 :: rs =>
      let path := joinWith '\t' (r1 :: rs)
      if trimL path = [] then none
      else
        let metaParts := splitWS meta
        if metaParts.length < 3 then none
        else
          let stage := parseU8 (trimL (metaParts.getD 2 []))
          if stage = 0 then none else some (path, stage)
    | _ => none

/-- Model of `parse_ls_files_unmerged_z` (`conflicts.rs:667`): collect the
stage numbers present for each path, as a sorted duplicate-free list. -/
def parseLsFilesUnmergedZ (out : Str) : List (Str × List Nat) :=
  let pairs := (splitOnChar (Char.ofNat 0) out).filterMap lsFilesRecord
  let raw := pairs.foldl (fun m ps =>
    match alookup m ps.1 with
    | none => ainsert m ps.1 [ps.2]
    | some l => if ps.2 ∈ l then m else ainsert m ps.1 (l ++ [ps.2])) []
  raw.map (fun pl => (pl.1, List.insertionSort (fun a b => a ≤ b) pl.2))

/-- One conflicted-file entry of `git_conflict_state`
(`GitConflictFileEntry`, `conflicts.rs:292`). -/
structure GitConflictFileEntry where
  status : Str
  path : Str
  stages : List Nat
deriving Repr, DecidableEq

/-- Result record of `git_conflict_state` (`GitConflictState`,
`conflicts.rs:590`). -/
structure GitConflictState where
  inProgress : Bool
  operation : Str
  files : List GitConflictFileEntry
deriving Repr, DecidableEq

/-- Model of `git_conflict_state` (`conflicts.rs:866`): probe the four
operation sentinels, pick the operation by fixed priority
(am → rebase → merge → cherry-pick → none), list unmerged files, and
annotate each with a porcelain status (default `"U"`) and the set of index
stages present (default empty). -/
def gitConflictState (r : Repo) : Except Str GitConflictState :=
  if ¬ r.isWorktree then
    Except.error ("Selected path is not a Git working tree.".data)
  else
    let merge := isMergeInProgress r
    let rebase := isRebaseInProgress r
    let cherry := isCherryPickInProgress r
    let am := isAmInProgress r
    let operation :=
      if am then "am".data
      else if rebase then "rebase".data
      else if merge then "merge".data
      else if cherry then "cherry-pick".data
      else []
    let files := r.unmergedFiles
    match r.statusZ with
    | none => Except.error ("Failed to spawn git status".data)
    | some so =>
      let statusMap := if so.1 then parseStatusPorcelainZ so.2 else []
      match r.lsFilesU with
      | none => Except.error ("Failed to spawn git ls-files".data)
      | some lo =>
        let stagesMap := if lo.1 then parseLsFilesUnmergedZ lo.2 else []
        Except.ok
          { inProgress := merge || rebase || cherry || am
            operation := operation
            files := files.map (fun p =>
              { status := (alookup statusMap p).getD ("U".data)
                path := p
                stages := (alookup stagesMap p).getD [] }) }

/-- Model of `bytes_to_text_or_err` (`conflicts.rs:707`): a NUL byte makes
the content "binary" and is an error; otherwise the text is returned. -/
def bytesToTextOrErr (b : Str) : Except Str Str :=
  if (Char.ofNat 0) ∈ b then
    Except.error ("Binary file preview is not supported.".data)
  else Except.ok b

/-- Result record of `git_conflict_file_versions`
(`GitConflictFileVersions`, `conflicts.rs:597`). -/
structure GitConflictFileVersions where
  base : Option Str
  ours : Option Str
  theirs : Option Str
  working : Option Str
  oursPath : Option Str
  theirsPath : Option Str
  oursDeleted : Bool
  theirsDeleted : Bool
  conflictKind : Str
deriving Repr, DecidableEq

/-- Error-propagating bind on `Except` (the Rust `?` operator), written as
an explicit match so proofs and kernel evaluation reduce it directly. -/
def bindE (x : Except Str α) (f : α → Except Str β) : Except Str β :=
  match x with
  | Except.error e => Except.error e
  | Except.ok a => f a

/-- `bindE` on a success value applies the continuation. -/
theorem bindE_ok (a : α) (f : α → Except Str β) : bindE (Except.ok a) f = f a := rfl

/-- The `if X.is_empty() { None } else { Some(bytes_to_text_or_err(X)?) }`
pattern of `git_conflict_file_versions`. -/
def optTextOf (b : Str) : Except Str (Option Str) :=
  if b = [] then Except.ok none
  else bindE (bytesToTextOrErr b) (fun t => Except.ok (some t))

/-- Model of `git_conflict_file_versions` (`conflicts.rs:933`): fetch the
three stage contents and the working-tree file, then classify the conflict
(text / rename / modify-delete) following the source's mutable-state logic
statement by statement.  The classification state is threaded as a tuple
`(resolved theirs, theirs path, theirs deleted, conflict kind)`. -/
def gitConflictFileVersions (r : Repo) (path0 : Str) :
    Except Str GitConflictFileVersions :=
  if ¬ r.isWorktree then
    Except.error ("Selected path is not a Git working tree.".data)
  else
    let path := trimL path0
    if path = [] then Except.error ("path is empty".data)
    else
      match safeRepoJoin r.repoPath path with
      | Except.error e => Except.error (("Invalid path: ".data) ++ e)
      | Except.ok _full =>
        let baseBytes := r.showBytes (":1".data) path
        let oursBytes := r.showBytes (":2".data) path
        let theirsBytes := r.showBytes (":3".data) path
        bindE (match r.workRead path with
          | ReadRes.found b => Except.ok (some b)
          | ReadRes.notFound => Except.ok none
          | ReadRes.failed e => Except.error (("Failed to read file: ".data) ++ e))
          (fun workingBytes =>
        bindE (optTextOf baseBytes) (fun base =>
        bindE (optTextOf oursBytes) (fun ours =>
        bindE (optTextOf theirsBytes) (fun theirs =>
        bindE (match workingBytes with
          | none => Except.ok none
          | some b => bindE (bytesToTextOrErr b) (fun t => Except.ok (some t)))
          (fun working =>
        let oursDeleted0 := ours.isNone && !(r.existsAtRev ("HEAD".data) path)
        bindE (if theirs.isNone then
            match detectTheirsRef r with
            | none =>
              Except.ok (theirs, (none : Option Str), theirs.isNone, ("text".data : Str))
            | some tr =>
              let renames := detectRenamesAgainstTheirs r tr
              bindE (match alookup renames path with
                | some newPath =>
                  let altBytes := r.showBytes tr newPath
                  if altBytes ≠ [] then
                    bindE (bytesToTextOrErr altBytes) (fun t =>
                      Except.ok (some t, some newPath, false, ("rename".data : Str)))
                  else
                    Except.ok ((none : Option Str), (none : Option Str), true,
                      ("text".data : Str))
                | none =>
                  Except.ok ((none : Option Str), (none : Option Str), true,
                    ("text".data : Str))) (fun inner =>
              if inner.2.2.2 ≠ "rename".data then
                let td := !(r.existsAtRev tr path)
                Except.ok (inner.1, inner.2.1, td,
                  if td then ("modify_delete".data : Str) else inner.2.2.2)
              else Except.ok inner)
          else Except.ok (theirs, none, false, ("text".data : Str)))
          (fun step =>
        let resolvedTheirs := step.1
        let theirsPath := step.2.1
        let theirsDeleted1 := step.2.2.1
        let kind1 := step.2.2.2
        let stageOursMissing := ours.isNone
        let stageTheirsMissing := resolvedTheirs.isNone
        let forced := kind1 ≠ "rename".data ∧ Bool.xor stageOursMissing stageTheirsMissing = true
        let kind2 := if forced then ("modify_delete".data : Str) else kind1
        let oursDeleted1 := if forced then stageOursMissing else oursDeleted0
        let theirsDeleted2 := if forced then stageTheirsMissing else theirsDeleted1
        let kind3 := if oursDeleted1 then ("modify_delete".data : Str) else kind2
        Except.ok
          { base := base
            ours := ours
            theirs := resolvedTheirs
            working := working
            oursPath := some path
            theirsPath := theirsPath
            oursDeleted := oursDeleted1
            theirsDeleted := theirsDeleted2
            conflictKind := kind3 }))))))

/-- The head of `dropWhile p l` never satisfies `p`. -/
theorem dropWhile_head?_not (p : Char → Bool) (l : Str) :
    ∀ c, (l.dropWhile p).head? = some c → p c = false := by
  induction l with
  | nil => intro c h; simp at h
  | cons a t ih =>
    intro c h
    by_cases hpa : p a = true
    · rw [List.dropWhile_cons, if_pos hpa] at h
      exact ih c h
    · rw [List.dropWhile_cons, if_neg hpa] at h
      simp at h
      subst h
      simpa using hpa

/-- When non-empty, `dropWhile p l` keeps the last element of `l`. -/
theorem dropWhile_getLast?_eq (p : Char → Bool) (l : Str)
    (h : l.dropWhile p ≠ []) : (l.dropWhile p).getLast? = l.getLast? := by
  induction l with
  | nil => simp at h
  | cons a t ih =>
    by_cases hpa : p a = true
    · rw [List.dropWhile_cons, if_pos hpa] at h ⊢
      have ht : t ≠ [] := by
        intro he
        rw [he] at h
        simp at h
      rw [ih h]
      match t, ht with
      | b :: t2, _ => rw [List.getLast?_cons_cons]
    · rw [List.dropWhile_cons, if_neg hpa]

/-- A list whose two ends are not whitespace is a fixed point of `trimL`. -/
theorem trimL_fixed (s : Str)
    (hh : ∀ c, s.head? = some c → isWS c = false)
    (hl : ∀ c, s.getLast? = some c → isWS c = false) : trimL s = s := by
  unfold trimL
  have h1 : s.dropWhile isWS = s := by
    cases s with
    | nil => simp
    | cons a t =>
      have ha := hh a (by rfl)
      rw [List.dropWhile_cons, if_neg (by simp [ha])]
  rw [h1]
  have h2 : s.reverse.dropWhile isWS = s.reverse := by
    cases hr : s.reverse with
    | nil => simp
    | cons a t =>
      have ha : s.getLast? = some a := by
        rw [← List.head?_reverse, hr]
        rfl
      rw [List.dropWhile_cons, if_neg (by simp [hl a ha])]
  rw [h2, List.reverse_reverse]

/-- `trimL` is idempotent. -/
theorem trimL_idem (s : Str) : trimL (trimL s) = trimL s := by
  apply trimL_fixed
  · intro c h
    unfold trimL at h
    rw [List.head?_reverse] at h
    have hne : (s.dropWhile isWS).reverse.dropWhile isWS ≠ [] := by
      intro he
      rw [he] at h
      simp at h
    rw [dropWhile_getLast?_eq _ _ hne, List.getLast?_reverse] at h
    exact dropWhile_head?_not _ _ c h
  · intro c h
    unfold trimL at h
    rw [List.getLast?_reverse] at h
    exact dropWhile_head?_not _ _ c h

/-- When `gitConflictState` returns a result, its `operation` field is the
fixed-priority probe chain and `inProgress` is the disjunction of the four
probes. -/
theorem gitConflictState_ok_shape (r : Repo) (st : GitConflictState)
    (h : gitConflictState r = Except.ok st) :
    st.operation =
      (if isAmInProgress r then "am".data
       else if isRebaseInProgress r then "rebase".data
       else if isMergeInProgress r then "merge".data
       else if isCherryPickInProgress r then "cherry-pick".data
       else []) ∧
    st.inProgress =
      (isMergeInProgress r || isRebaseInProgress r ||
        isCherryPickInProgress r || isAmInProgress r) := by
  unfold gitConflictState at h
  by_cases hw : r.isWorktree
  · rw [if_neg (by simp [hw])] at h
    cases hs : r.statusZ with
    | none => rw [hs] at h; cases h
    | some so =>
      rw [hs] at h
      cases hl : r.lsFilesU with
      | none => rw [hl] at h; cases h
      | some lo =>
        rw [hl] at h
        cases h
        constructor <;> rfl
  · rw [if_pos (by simp [hw])] at h
    cases h

/-- C1: `getConflictState` determines the active composite operation by
probing sentinels in a fixed priority order — mailbox-apply (the `applying`
marker under `rebase-apply`), then rebase (`REBASE_HEAD` resolvable), then
merge (`MERGE_HEAD` resolvable), then cherry-pick (`CHERRY_PICK_HEAD`
resolvable), else idle — so exactly one operation kind (or none) is
reported and the reported kinds are mutually exclusive. -/
theorem conflict_state_priority_order (r : Repo) (st : GitConflictState)
    (h : gitConflictState r = Except.ok st) :
    (st.operation = "am".data ↔ isAmInProgress r = true) ∧
    (st.operation = "rebase".data ↔
      (isAmInProgress r = false ∧ isRebaseInProgress r = true)) ∧
    (st.operation = "merge".data ↔
      (isAmInProgress r = false ∧ isRebaseInProgress r = false ∧
        isMergeInProgress r = true)) ∧
    (st.operation = "cherry-pick".data ↔
      (isAmInProgress r = false ∧ isRebaseInProgress r = false ∧
        isMergeInProgress r = false ∧ isCherryPickInProgress r = true)) ∧
    (st.operation = [] ↔
      (isAmInProgress r = false ∧ isRebaseInProgress r = false ∧
        isMergeInProgress r = false ∧ isCherryPickInProgress r = false)) := by
  have hop := (gitConflictState_ok_shape r st h).1
  cases ham : isAmInProgress r <;> cases hreb : isRebaseInProgress r <;>
    cases hmer : isMergeInProgress r <;> cases hch : isCherryPickInProgress r <;>
    rw [ham, hreb, hmer, hch] at hop <;> simp at hop <;> rw [hop] <;>
    refine ⟨?_, ?_, ?_, ?_, ?_⟩ <;> simp

/-- Concrete repository used to witness the C1 theorem: a merge is in
progress and both annotation sub-calls succeed with empty output. -/
def c1Repo : Repo :=
  { repoPath := "/r".data
    isWorktree := true
    revResolvable := fun rev => rev == "MERGE_HEAD".data
    amApplying := false
    unmergedFiles := ["f".data]
    statusZ := some (true, [])
    lsFilesU := some (true, [])
    showBytes := fun _ _ => []
    existsAtRev := fun _ _ => false
    diffTheirs := fun _ => none
    workRead := fun _ => ReadRes.notFound
    run := fun _ => none
    lsTreeHead := none
    hashObject := none
    fsExists := fun _ => false }

/-- Witness for C1: on `c1Repo` the reported operation is `merge`, by the
priority theorem applied at that concrete repository. -/
theorem conflict_state_priority_order_witness :
    ∃ st, gitConflictState c1Repo = Except.ok st ∧
      (st.operation = "merge".data ↔
        (isAmInProgress c1Repo = false ∧ isRebaseInProgress c1Repo = false ∧
          isMergeInProgress c1Repo = true)) :=
  ⟨{ inProgress := true
     operation := "merge".data
     files := [{ status := "U".data, path := "f".data, stages := [] }] },
    rfl,
    (conflict_state_priority_order c1Repo _ rfl).2.2.1⟩

/-- Repository on which the porcelain-status sub-call cannot be spawned:
`git_conflict_state` then propagates the error instead of falling back. -/
def c9Repo : Repo :=
  { repoPath := "/r".data
    isWorktree := true
    revResolvable := fun rev => rev == "MERGE_HEAD".data
    amApplying := false
    unmergedFiles := ["f".data]
    statusZ := none
    lsFilesU := some (true, [])
    showBytes := fun _ _ => []
    existsAtRev := fun _ _ => false
    diffTheirs := fun _ => none
    workRead := fun _ => ReadRes.notFound
    run := fun _ => none
    lsTreeHead := none
    hashObject := none
    fsExists := fun _ => false }

/-- C9 counterexample: the claim says `getConflictState` never fails because
of its two secondary annotation queries, but when the porcelain-status
sub-call fails to spawn the call returns an error (the source propagates the
spawn error with `?`). -/
theorem conflict_state_spawn_failure_counterexample :
    gitConflictState c9Repo = Except.error ("Failed to spawn git status".data) := by
  decide

/-- C9 amended: whenever the two secondary annotation sub-calls can be
spawned, `getConflictState` returns its primary result successfully even if
either sub-call exits unsuccessfully; a failed porcelain-status call makes
every entry fall back to status `"U"`, and a failed unmerged-index-listing
call makes every entry fall back to an empty stage set. -/
theorem conflict_state_annotation_fallback (r : Repo) (so lo : Bool × Str)
    (hw : r.isWorktree = true)
    (hs : r.statusZ = some so)
    (hl : r.lsFilesU = some lo) :
    ∃ st, gitConflictState r = Except.ok st ∧
      st.files.map (fun e => e.path) = r.unmergedFiles ∧
      st.inProgress =
        (isMergeInProgress r || isRebaseInProgress r ||
          isCherryPickInProgress r || isAmInProgress r) ∧
      (so.1 = false → ∀ e ∈ st.files, e.status = "U".data) ∧
      (lo.1 = false → ∀ e ∈ st.files, e.stages = []) := by
  refine ⟨{ inProgress := (isMergeInProgress r || isRebaseInProgress r ||
              isCherryPickInProgress r || isAmInProgress r)
            operation := (if isAmInProgress r then "am".data
              else if isRebaseInProgress r then "rebase".data
              else if isMergeInProgress r then "merge".data
              else if isCherryPickInProgress r then "cherry-pick".data
              else [])
            files := r.unmergedFiles.map (fun p =>
              { status := (alookup (if so.1 then parseStatusPorcelainZ so.2 else []) p).getD ("U".data)
                path := p
                stages := (alookup (if lo.1 then parseLsFilesUnmergedZ lo.2 else []) p).getD [] }) },
    ?_, ?_, ?_, ?_, ?_⟩
  · unfold gitConflictState
    rw [if_neg (by simp [hw]), hs, hl]
  · rw [List.map_map]
    exact List.map_id'' (fun _ => rfl) _
  · rfl
  · intro hso e he
    simp only [List.mem_map] at he
    obtain ⟨p, _, hpe⟩ := he
    rw [← hpe]
    simp [hso, alookup]
  · intro hlo e he
    simp only [List.mem_map] at he
    obtain ⟨p, _, hpe⟩ := he
    rw [← hpe]
    simp [hlo, alookup]

/-- Repository whose two annotation sub-calls spawn but exit non-zero. -/
def c9FallbackRepo : Repo :=
  { repoPath := "/r".data
    isWorktree := true
    revResolvable := fun rev => rev == "MERGE_HEAD".data
    amApplying := false
    unmergedFiles := ["f".data]
    statusZ := some (false, [])
    lsFilesU := some (false, [])
    showBytes := fun _ _ => []
    existsAtRev := fun _ _ => false
    diffTheirs := fun _ => none
    workRead := fun _ => ReadRes.notFound
    run := fun _ => none
    lsTreeHead := none
    hashObject := none
    fsExists := fun _ => false }

/-- Witness for the C9 amended theorem at a concrete repository where both
annotation sub-calls exit non-zero. -/
theorem conflict_state_annotation_fallback_witness :
    ∃ st, gitConflictState c9FallbackRepo = Except.ok st ∧
      st.files.map (fun e => e.path) = c9FallbackRepo.unmergedFiles ∧
      st.inProgress =
        (isMergeInProgress c9FallbackRepo || isRebaseInProgress c9FallbackRepo ||
          isCherryPickInProgress c9FallbackRepo || isAmInProgress c9FallbackRepo) ∧
      ((false, ([] : Str)).1 = false → ∀ e ∈ st.files, e.status = "U".data) ∧
      ((false, ([] : Str)).1 = false → ∀ e ∈ st.files, e.stages = []) :=
  conflict_state_annotation_fallback c9FallbackRepo (false, []) (false, []) rfl rfl rfl

/-- C2: for a conflicted path whose stage-3 (theirs) content is absent, with
an active theirs reference, no rename of the path detected in the diff of
`HEAD` against that reference, the path absent from the theirs reference,
and stage-2 (ours) content present, `getConflictFileVersions` reports
`conflict_kind = modify_delete`, `theirs_deleted = true`,
`ours_deleted = false`. -/
theorem conflict_versions_modify_delete (r : Repo) (path0 tr : Str)
    (hw : r.isWorktree = true)
    (hne : trimL path0 ≠ [])
    (habs : isAbsolutePath (trimL path0) = false)
    (hpar : hasParentDirComponent (trimL path0) = false)
    (hbase : Char.ofNat 0 ∉ r.showBytes (":1".data) (trimL path0))
    (hoursNe : r.showBytes (":2".data) (trimL path0) ≠ [])
    (hoursNb : Char.ofNat 0 ∉ r.showBytes (":2".data) (trimL path0))
    (htheirs : r.showBytes (":3".data) (trimL path0) = [])
    (hworkNf : ∀ e, r.workRead (trimL path0) ≠ ReadRes.failed e)
    (hworkNb : ∀ b, r.workRead (trimL path0) = ReadRes.found b → Char.ofNat 0 ∉ b)
    (htr : detectTheirsRef r = some tr)
    (hren : alookup (detectRenamesAgainstTheirs r tr) (trimL path0) = none)
    (hex : r.existsAtRev tr (trimL path0) = false) :
    ∃ v, gitConflictFileVersions r path0 = Except.ok v ∧
      v.conflictKind = "modify_delete".data ∧
      v.theirsDeleted = true ∧ v.oursDeleted = false := by
  unfold gitConflictFileVersions
  rw [if_neg (by simp [hw])]
  rw [if_neg (by simpa using hne)]
  have hjoin : safeRepoJoin r.repoPath (trimL path0) =
      Except.ok (joinPath r.repoPath (trimL path0)) := by
    unfold safeRepoJoin
    rw [trimL_idem]
    rw [if_neg hne, if_neg (by simp [habs]), if_neg (by simp [hpar])]
  rw [hjoin]
  cases hwr : r.workRead (trimL path0) with
  | failed e => exact absurd hwr (hworkNf e)
  | notFound =>
    rw [bindE_ok]
    have h1 : optTextOf (r.showBytes (":1".data) (trimL path0)) =
        Except.ok (if r.showBytes (":1".data) (trimL path0) = [] then none
          else some (r.showBytes (":1".data) (trimL path0))) := by
      unfold optTextOf bytesToTextOrErr
      by_cases hb : r.showBytes (":1".data) (trimL path0) = [] <;>
        simp [hb, bindE_ok, if_neg (by simpa using hbase)]
    have h2 : optTextOf (r.showBytes (":2".data) (trimL path0)) =
        Except.ok (some (r.showBytes (":2".data) (trimL path0))) := by
      unfold optTextOf bytesToTextOrErr
      simp [hoursNe, bindE_ok, if_neg (by simpa using hoursNb)]
    have h3 : optTextOf (r.showBytes (":3".data) (trimL path0)) = Except.ok none := by
      unfold optTextOf
      simp [htheirs]
    rw [h1, bindE_ok, h2, bindE_ok, h3, bindE_ok, bindE_ok]
    simp only [Option.isNone_some, htr, hren, hex]
    exact ⟨_, rfl, rfl, rfl, rfl⟩
  | found b =>
    have hnb := hworkNb b hwr
    rw [bindE_ok]
    have h1 : optTextOf (r.showBytes (":1".data) (trimL path0)) =
        Except.ok (if r.showBytes (":1".data) (trimL path0) = [] then none
          else some (r.showBytes (":1".data) (trimL path0))) := by
      unfold optTextOf bytesToTextOrErr
      by_cases hb : r.showBytes (":1".data) (trimL path0) = [] <;>
        simp [hb, bindE_ok, if_neg (by simpa using hbase)]
    have h2 : optTextOf (r.showBytes (":2".data) (trimL path0)) =
        Except.ok (some (r.showBytes (":2".data) (trimL path0))) := by
      unfold optTextOf bytesToTextOrErr
      simp [hoursNe, bindE_ok, if_neg (by simpa using hoursNb)]
    have h3 : optTextOf (r.showBytes (":3".data) (trimL path0)) = Except.ok none := by
      unfold optTextOf
      simp [htheirs]
    have h4 : bindE (bytesToTextOrErr b) (fun t => Except.ok (some t)) =
        Except.ok (some b) := by
      unfold bytesToTextOrErr
      simp [bindE_ok, if_neg (by simpa using hnb)]
    rw [h1, bindE_ok, h2, bindE_ok, h3, bindE_ok]
    simp only [h4, bindE_ok]
    simp only [Option.isNone_some, htr, hren, hex]
    exact ⟨_, rfl, rfl, rfl, rfl⟩

/-- Repository witnessing C2: a merge is active, stage 2 of `f` holds `x`,
stage 3 is absent, no rename is reported by the diff, and `f` does not exist
under `MERGE_HEAD`. -/
def c2Repo : Repo :=
  { repoPath := "/r".data
    isWorktree := true
    revResolvable := fun rev => rev == "MERGE_HEAD".data
    amApplying := false
    unmergedFiles := ["f".data]
    statusZ := some (true, [])
    lsFilesU := some (true, [])
    showBytes := fun rev p => if rev == ":2".data && p == "f".data then "x".data else []
    existsAtRev := fun _ _ => false
    diffTheirs := fun _ => some (true, some 0, [])
    workRead := fun _ => ReadRes.notFound
    run := fun _ => none
    lsTreeHead := none
    hashObject := none
    fsExists := fun _ => false }

/-- Witness for C2 at `c2Repo` and path `f`. -/
theorem conflict_versions_modify_delete_witness :
    ∃ v, gitConflictFileVersions c2Repo ("f".data) = Except.ok v ∧
      v.conflictKind = "modify_delete".data ∧
      v.theirsDeleted = true ∧ v.oursDeleted = false :=
  conflict_versions_modify_delete c2Repo ("f".data) ("MERGE_HEAD".data)
    rfl (by decide) (by decide) (by decide) (by decide) (by decide) (by decide)
    (by decide) (fun e h => ReadRes.noConfusion h) (fun b h => ReadRes.noConfusion h)
    rfl rfl rfl

/-- C8 counterexample: the claim says that when captured stderr is empty the
error message of the run primitive contains the captured stdout; but on a
failing process with empty stderr and stdout `boom`, `run_git` produces the
fixed message with empty stderr appended, which does not contain `boom`. -/
theorem run_git_stdout_fallback_counterexample :
    runGitModel { success := false, code := some 1, stdout := "boom".data, stderr := [] } =
      Except.error ("git command failed: ".data) ∧
    containsSub ("git command failed: ".data) ("boom".data) = false := by
  decide

/-- C8 amended: for every invocation through `run_git` or
`run_git_with_stdin`, a non-zero exit yields an error whose message is the
fixed prefix followed by the captured standard-error text (so it always
contains the captured stderr); there is no fallback to standard-output when
stderr is empty. -/
theorem run_git_error_contains_stderr (d : Str) (o : ProcOut)
    (h : o.success = false) :
    runGitModel o = Except.error ("git command failed: ".data ++ o.stderr) ∧
    runGitWithStdinModel d o = Except.error ("git command failed: ".data ++ o.stderr) ∧
    containsSub ("git command failed: ".data ++ o.stderr) o.stderr = true := by
  refine ⟨?_, ?_, ?_⟩
  · unfold runGitModel
    rw [if_neg (by simp [h])]
  · unfold runGitWithStdinModel
    rw [if_neg (by simp [h])]
  · simp only [containsSub, decide_eq_true_eq]
    exact (List.suffix_append _ _).isInfix

/-- Witness for the C8 amended theorem at a concrete failing process. -/
theorem run_git_error_contains_stderr_witness :
    runGitModel { success := false, code := some 1, stdout := [], stderr := "oops".data } =
      Except.error ("git command failed: ".data ++ "oops".data) ∧
    runGitWithStdinModel ("in".data)
        { success := false, code := some 1, stdout := [], stderr := "oops".data } =
      Except.error ("git command failed: ".data ++ "oops".data) ∧
    containsSub ("git command failed: ".data ++ "oops".data) ("oops".data) = true :=
  run_git_error_contains_stderr ("in".data)
    { success := false, code := some 1, stdout := [], stderr := "oops".data } rfl

/-- A single apostrophe character, used inside error-message literals. -/
def quoteC : Str := [Char.ofNat 39]

/-- Parent directory of a path, Unix semantics (Rust `Path::parent` on the
absolute joined paths these commands produce). -/
def parentOf (p : Str) : Option Str :=
  let parts := splitOnChar '/' p
  if parts.length ≤ 1 then none else some (joinWith '/' parts.dropLast)

/-- One `run_git` call through the oracle: spawn failure or the exit-code
mapping of `run_git`. -/
def runGitE (r : Repo) (args : List Str) : Except Str Str :=
  match r.run args with
  | none => Except.error ("Failed to spawn git".data)
  | some o => runGitModel o

/-- The `create_dir_all` performed for a target's parent, as an effect list. -/
def mkParentEffs (full : Str) : List Effect :=
  match parentOf full with
  | some par => [Effect.fsCreateDirs par]
  | none => []

/-- Checkout-and-stage tail of `git_conflict_take_ours`
(`conflicts.rs:1055`). -/
def takeOursFinish (r : Repo) (path : Str) (effs : List Effect) :
    List Effect × Except Str Str :=
  let a2 := ["checkout".data, "--ours".data, "--".data, path]
  match runGitE r a2 with
  | Except.error e => (effs ++ [Effect.runGitCmd a2], Except.error e)
  | Except.ok _ =>
    let a3 := ["add".data, "--".data, path]
    match runGitE r a3 with
    | Except.error e =>
      (effs ++ [Effect.runGitCmd a2, Effect.runGitCmd a3], Except.error e)
    | Except.ok _ =>
      (effs ++ [Effect.runGitCmd a2, Effect.runGitCmd a3], Except.ok ("ok".data))

/-- Model of `git_conflict_take_ours` (`conflicts.rs:1030`): validate the
path, then either stage the removal (ours deleted), or drop a detected
rename target and checkout/stage the ours side.  The effect list records
the mutating commands in order. -/
def gitConflictTakeOurs (r : Repo) (path0 : Str) : List Effect × Except Str Str :=
  if ¬ r.isWorktree then
    ([], Except.error ("Selected path is not a Git working tree.".data))
  else
    let path := trimL path0
    if path = [] then ([], Except.error ("path is empty".data))
    else
      match safeRepoJoin r.repoPath path with
      | Except.error e => ([], Except.error (("Invalid path: ".data) ++ e))
      | Except.ok _ =>
        let oursBytes := r.showBytes (":2".data) path
        if oursBytes = [] then
          let a1 := ["rm".data, "-f".data, "--".data, path]
          match runGitE r a1 with
          | Except.error e => ([Effect.runGitCmd a1], Except.error e)
          | Except.ok _ => ([Effect.runGitCmd a1], Except.ok ("ok".data))
        else
          match detectTheirsRef r with
          | some tr =>
            match alookup (detectRenamesAgainstTheirs r tr) path with
            | some newPath =>
              let a1 := ["rm".data, "-f".data, "--".data, newPath]
              match runGitE r a1 with
              | Except.error e => ([Effect.runGitCmd a1], Except.error e)
              | Except.ok _ => takeOursFinish r path [Effect.runGitCmd a1]
            | none => takeOursFinish r path []
          | none => takeOursFinish r path []

/-- Model of `git_conflict_take_theirs` (`conflicts.rs:1068`): validate the
path; checkout/stage theirs when stage 3 is present; otherwise handle the
rename case (write theirs content at the renamed path, stage it, remove the
original) or remove the path. -/
def gitConflictTakeTheirs (r : Repo) (path0 : Str) : List Effect × Except Str Str :=
  if ¬ r.isWorktree then
    ([], Except.error ("Selected path is not a Git working tree.".data))
  else
    let path := trimL path0
    if path = [] then ([], Except.error ("path is empty".data))
    else
      match safeRepoJoin r.repoPath path with
      | Except.error e => ([], Except.error (("Invalid path: ".data) ++ e))
      | Except.ok _ =>
        let theirsBytes := r.showBytes (":3".data) path
        if theirsBytes ≠ [] then
          let a1 := ["checkout".data, "--theirs".data, "--".data, path]
          match runGitE r a1 with
          | Except.error e => ([Effect.runGitCmd a1], Except.error e)
          | Except.ok _ =>
            let a2 := ["add".data, "--".data, path]
            match runGitE r a2 with
            | Except.error e =>
              ([Effect.runGitCmd a1, Effect.runGitCmd a2], Except.error e)
            | Except.ok _ =>
              ([Effect.runGitCmd a1, Effect.runGitCmd a2], Except.ok ("ok".data))
        else
          match detectTheirsRef r with
          | some tr =>
            match alookup (detectRenamesAgainstTheirs r tr) path with
            | some newPath =>
              match safeRepoJoin r.repoPath newPath with
              | Except.error e => ([], Except.error (("Invalid path: ".data) ++ e))
              | Except.ok fullNew =>
                let effs0 := mkParentEffs fullNew
                let theirsNewBytes := r.showBytes tr newPath
                if theirsNewBytes = [] then
                  let a1 := ["rm".data, "-f".data, "--".data, path]
                  match runGitE r a1 with
                  | Except.error e => (effs0 ++ [Effect.runGitCmd a1], Except.error e)
                  | Except.ok _ => (effs0 ++ [Effect.runGitCmd a1], Except.ok ("ok".data))
                else
                  let effs1 := effs0 ++ [Effect.fsWrite fullNew theirsNewBytes]
                  let a1 := ["add".data, "-A".data, "--".data, newPath]
                  match runGitE r a1 with
                  | Except.error e => (effs1 ++ [Effect.runGitCmd a1], Except.error e)
                  | Except.ok _ =>
                    let a2 := ["rm".data, "-f".data, "--".data, path]
                    match runGitE r a2 with
                    | Except.error e =>
                      (effs1 ++ [Effect.runGitCmd a1, Effect.runGitCmd a2], Except.error e)
                    | Except.ok _ =>
                      (effs1 ++ [Effect.runGitCmd a1, Effect.runGitCmd a2],
                        Except.ok ("ok".data))
            | none =>
              let a1 := ["rm".data, "-f".data, "--".data, path]
              match runGitE r a1 with
              | Except.error e => ([Effect.runGitCmd a1], Except.error e)
              | Except.ok _ => ([Effect.runGitCmd a1], Except.ok ("ok".data))
          | none =>
            let a1 := ["rm".data, "-f".data, "--".data, path]
            match runGitE r a1 with
            | Except.error e => ([Effect.runGitCmd a1], Except.error e)
            | Except.ok _ => ([Effect.runGitCmd a1], Except.ok ("ok".data))

/-- Model of `git_conflict_apply_and_stage` (`conflicts.rs:1118`): validate
the path, write the caller-supplied content (creating parent directories)
and stage it. -/
def gitConflictApplyAndStage (r : Repo) (path0 content : Str) :
    List Effect × Except Str Str :=
  if ¬ r.isWorktree then
    ([], Except.error ("Selected path is not a Git working tree.".data))
  else
    let path := trimL path0
    if path = [] then ([], Except.error ("path is empty".data))
    else
      match safeRepoJoin r.repoPath path with
      | Except.error e => ([], Except.error (("Invalid path: ".data) ++ e))
      | Except.ok full =>
        let effs0 := mkParentEffs full ++ [Effect.fsWrite full content]
        let a1 := ["add".data, "--".data, path]
        match runGitE r a1 with
        | Except.error e => (effs0 ++ [Effect.runGitCmd a1], Except.error e)
        | Except.ok _ => (effs0 ++ [Effect.runGitCmd a1], Except.ok ("ok".data))

/-- Model of `git_conflict_resolve_rename` (`conflicts.rs:51`): validate the
path and the `keep_name`/`keep_content` selectors, detect the rename target,
load the chosen side's content, write it at the chosen final path, stage it,
and remove the unused counterpart (index entry and stray working-tree
file). -/
def gitConflictResolveRename (r : Repo) (path0 keepName0 keepContent0 : Str) :
    List Effect × Except Str Str :=
  if ¬ r.isWorktree then
    ([], Except.error ("Selected path is not a Git working tree.".data))
  else
    let path := trimL path0
    if path = [] then ([], Except.error ("path is empty".data))
    else
      let keepName := trimL keepName0
      let keepContent := trimL keepContent0
      if keepName ≠ "ours".data ∧ keepName ≠ "theirs".data then
        ([], Except.error (("keep_name must be ".data) ++ quoteC ++ ("ours".data) ++
          quoteC ++ (" or ".data) ++ quoteC ++ ("theirs".data) ++ quoteC))
      else if keepContent ≠ "ours".data ∧ keepContent ≠ "theirs".data then
        ([], Except.error (("keep_content must be ".data) ++ quoteC ++ ("ours".data) ++
          quoteC ++ (" or ".data) ++ quoteC ++ ("theirs".data) ++ quoteC))
      else
        let oursPath := path
        match safeRepoJoin r.repoPath oursPath with
        | Except.error e => ([], Except.error (("Invalid path: ".data) ++ e))
        | Except.ok _ =>
          match detectTheirsRef r with
          | none =>
            ([], Except.error
              ("Failed to detect their ref (MERGE_HEAD/REBASE_HEAD).".data))
          | some theirsRef =>
            match alookup (detectRenamesAgainstTheirs r theirsRef) oursPath with
            | none =>
              ([], Except.error ("Failed to detect rename target for this conflict.".data))
            | some theirsPath =>
              match safeRepoJoin r.repoPath theirsPath with
              | Except.error e => ([], Except.error (("Invalid path: ".data) ++ e))
              | Except.ok _ =>
                let contentBytes :=
                  if keepContent = "ours".data then r.showBytes (":2".data) oursPath
                  else
                    let b := r.showBytes (":3".data) oursPath
                    if b ≠ [] then b else r.showBytes theirsRef theirsPath
                if contentBytes = [] then
                  ([], Except.error
                    ("Failed to load selected content for rename conflict.".data))
                else
                  match bytesToTextOrErr contentBytes with
                  | Except.error e => ([], Except.error e)
                  | Except.ok contentText =>
                    let finalPath := if keepName = "ours".data then oursPath else theirsPath
                    let removePath := if finalPath = oursPath then theirsPath else oursPath
                    match safeRepoJoin r.repoPath finalPath with
                    | Except.error e => ([], Except.error (("Invalid path: ".data) ++ e))
                    | Except.ok fullFinal =>
                      let effs0 := mkParentEffs fullFinal ++
                        [Effect.fsWrite fullFinal contentText]
                      let a1 := ["add".data, "-A".data, "--".data, finalPath]
                      match runGitE r a1 with
                      | Except.error e => (effs0 ++ [Effect.runGitCmd a1], Except.error e)
                      | Except.ok _ =>
                        let a2 := ["rm".data, "-f".data, "--ignore-unmatch".data,
                          "--".data, removePath]
                        match runGitE r a2 with
                        | Except.error e =>
                          (effs0 ++ [Effect.runGitCmd a1, Effect.runGitCmd a2],
                            Except.error e)
                        | Except.ok _ =>
                          match safeRepoJoin r.repoPath removePath with
                          | Except.error e =>
                            (effs0 ++ [Effect.runGitCmd a1, Effect.runGitCmd a2],
                              Except.error (("Invalid path: ".data) ++ e))
                          | Except.ok fullRemove =>
                            let effs1 := effs0 ++
                              [Effect.runGitCmd a1, Effect.runGitCmd a2] ++
                              (if r.fsExists fullRemove then
                                [Effect.fsRemove fullRemove] else [])
                            (effs1, Except.ok ("ok".data))

/-- An empty-after-trim, absolute, or `..`-containing path makes
`safe_repo_join` fail. -/
theorem safeRepoJoin_bad (repoPath rel : Str)
    (h : trimL rel = [] ∨ isAbsolutePath (trimL rel) = true ∨
      hasParentDirComponent (trimL rel) = true) :
    ∃ e, safeRepoJoin repoPath rel = Except.error e := by
  unfold safeRepoJoin
  by_cases h0 : trimL rel = []
  · rw [if_pos h0]; exact ⟨_, rfl⟩
  · by_cases h1 : isAbsolutePath (trimL rel) = true
    · rw [if_neg h0, if_pos (by simpa using h1)]; exact ⟨_, rfl⟩
    · have h2 : hasParentDirComponent (trimL rel) = true := by
        rcases h with h | h | h
        · exact absurd h h0
        · exact absurd h h1
        · exact h
      rw [if_neg h0, if_neg (by simpa using h1), if_pos (by simpa using h2)]
      exact ⟨_, rfl⟩

/-- C10: `safe_repo_join` errors exactly on empty-after-trim, absolute, or
`..`-containing caller paths and otherwise joins onto the repository path;
consequently `takeOurs`, `takeTheirs`, `applyAndStage` and `resolveRename`
reject such paths with an error before performing any filesystem write or
staging command (their effect trace is empty). -/
theorem safe_repo_join_rejects (r : Repo)
    (repoPath rel p content keepName keepContent : Str) :
    ((trimL rel = [] ∨ isAbsolutePath (trimL rel) = true ∨
        hasParentDirComponent (trimL rel) = true) →
      ∃ e, safeRepoJoin repoPath rel = Except.error e) ∧
    (trimL rel ≠ [] → isAbsolutePath (trimL rel) = false →
      hasParentDirComponent (trimL rel) = false →
      safeRepoJoin repoPath rel = Except.ok (joinPath repoPath (trimL rel))) ∧
    ((trimL p = [] ∨ isAbsolutePath (trimL p) = true ∨
        hasParentDirComponent (trimL p) = true) →
      (∃ e, gitConflictTakeOurs r p = ([], Except.error e)) ∧
      (∃ e, gitConflictTakeTheirs r p = ([], Except.error e)) ∧
      (∃ e, gitConflictApplyAndStage r p content = ([], Except.error e)) ∧
      (∃ e, gitConflictResolveRename r p keepName keepContent = ([], Except.error e))) := by
  refine ⟨safeRepoJoin_bad repoPath rel, ?_, ?_⟩
  · intro h0 h1 h2
    unfold safeRepoJoin
    rw [if_neg h0, if_neg (by simp [h1]), if_neg (by simp [h2])]
  · intro hbad
    have hbad' : trimL (trimL p) = [] ∨ isAbsolutePath (trimL (trimL p)) = true ∨
        hasParentDirComponent (trimL (trimL p)) = true := by
      rw [trimL_idem]; exact hbad
    obtain ⟨e, he⟩ := safeRepoJoin_bad r.repoPath (trimL p) hbad'
    refine ⟨?_, ?_, ?_, ?_⟩
    · unfold gitConflictTakeOurs
      by_cases hw : r.isWorktree = true
      · rw [if_neg (by simp [hw])]
        by_cases hp : trimL p = []
        · rw [if_pos hp]; exact ⟨_, rfl⟩
        · rw [if_neg hp, he]; exact ⟨_, rfl⟩
      · rw [if_pos (by simpa using hw)]; exact ⟨_, rfl⟩
    · unfold gitConflictTakeTheirs
      by_cases hw : r.isWorktree = true
      · rw [if_neg (by simp [hw])]
        by_cases hp : trimL p = []
        · rw [if_pos hp]; exact ⟨_, rfl⟩
        · rw [if_neg hp, he]; exact ⟨_, rfl⟩
      · rw [if_pos (by simpa using hw)]; exact ⟨_, rfl⟩
    · unfold gitConflictApplyAndStage
      by_cases hw : r.isWorktree = true
      · rw [if_neg (by simp [hw])]
        by_cases hp : trimL p = []
        · rw [if_pos hp]; exact ⟨_, rfl⟩
        · rw [if_neg hp, he]; exact ⟨_, rfl⟩
      · rw [if_pos (by simpa using hw)]; exact ⟨_, rfl⟩
    · unfold gitConflictResolveRename
      by_cases hw : r.isWorktree = true
      · rw [if_neg (by simp [hw])]
        by_cases hp : trimL p = []
        · rw [if_pos hp]; exact ⟨_, rfl⟩
        · rw [if_neg hp]
          by_cases hk1 : trimL keepName ≠ "ours".data ∧ trimL keepName ≠ "theirs".data
          · rw [if_pos hk1]; exact ⟨_, rfl⟩
          · rw [if_neg hk1]
            by_cases hk2 : trimL keepContent ≠ "ours".data ∧
                trimL keepContent ≠ "theirs".data
            · rw [if_pos hk2]; exact ⟨_, rfl⟩
            · rw [if_neg hk2]
              simp only [he]
              exact ⟨_, rfl⟩
      · rw [if_pos (by simpa using hw)]; exact ⟨_, rfl⟩

/-- Repository used by the C10 witness. -/
def c10Repo : Repo :=
  { repoPath := "/r".data
    isWorktree := true
    revResolvable := fun _ => false
    amApplying := false
    unmergedFiles := []
    statusZ := some (true, [])
    lsFilesU := some (true, [])
    showBytes := fun _ _ => []
    existsAtRev := fun _ _ => false
    diffTheirs := fun _ => none
    workRead := fun _ => ReadRes.notFound
    run := fun _ => none
    lsTreeHead := none
    hashObject := none
    fsExists := fun _ => false }

/-- Witness for C10 at the `..`-containing path `../x`: `safe_repo_join`
rejects it, a good path joins, and all four commands reject it with an empty
effect trace. -/
theorem safe_repo_join_rejects_witness :
    (∃ e, safeRepoJoin ("/r".data) ("a/../x".data) = Except.error e) ∧
    (safeRepoJoin ("/r".data) ("ok/x".data) =
      Except.ok (joinPath ("/r".data) (trimL ("ok/x".data)))) ∧
    (∃ e, gitConflictTakeOurs c10Repo ("a/../x".data) = ([], Except.error e)) ∧
    (∃ e, gitConflictTakeTheirs c10Repo ("a/../x".data) = ([], Except.error e)) ∧
    (∃ e, gitConflictApplyAndStage c10Repo ("a/../x".data) ("c".data) =
      ([], Except.error e)) ∧
    (∃ e, gitConflictResolveRename c10Repo ("a/../x".data) ("ours".data) ("ours".data) =
      ([], Except.error e)) := by
  have T := safe_repo_join_rejects c10Repo ("/r".data) ("ok/x".data) ("a/../x".data)
    ("c".data) ("ours".data) ("ours".data)
  have Tbad := safe_repo_join_rejects c10Repo ("/r".data) ("a/../x".data) ("a/../x".data)
    ("c".data) ("ours".data) ("ours".data)
  have h3 := T.2.2 (by decide)
  exact ⟨Tbad.1 (by decide), T.2.1 (by decide) (by decide) (by decide),
    h3.1, h3.2.1, h3.2.2.1, h3.2.2.2⟩

/-- Client todo entry (`InteractiveRebaseTodoEntry`,
`interactive_rebase.rs:9`). -/
structure RebaseTodoEntry where
  action : Str
  hash : Str
  shortHash : Option Str
  originalMessage : Option Str
  newMessage : Option Str
  newAuthor : Option Str
deriving Repr, DecidableEq

/-- One iteration of the todo-translation loop of
`git_interactive_rebase_start` (`interactive_rebase.rs:387`): the
accumulator is (native todo lines so far, reword map so far). -/
def entryStep (acc : List Str × List (Str × Option Str × Option Str))
    (e : RebaseTodoEntry) : List Str × List (Str × Option Str × Option Str) :=
  let action := lowerL (trimL e.action)
  let hash := trimL e.hash
  let msg := e.originalMessage.getD []
  if hash = [] then acc
  else if action = "drop".data then acc
  else if action = "reword".data then
    (acc.1 ++ [("edit ".data) ++ hash ++ (" ".data) ++ msg],
     ainsert acc.2 hash (e.newMessage, e.newAuthor))
  else if action = "edit".data then
    (acc.1 ++ [("edit ".data) ++ hash ++ (" ".data) ++ msg],
     if e.newAuthor.isSome || e.newMessage.isSome then
       ainsert acc.2 hash (e.newMessage, e.newAuthor)
     else acc.2)
  else if action = "squash".data then
    (acc.1 ++ [("fixup ".data) ++ hash ++ (" ".data) ++ msg], acc.2)
  else if action = "fixup".data then
    (acc.1 ++ [("fixup ".data) ++ hash ++ (" ".data) ++ msg], acc.2)
  else
    if e.newAuthor.isSome then
      (acc.1 ++ [("edit ".data) ++ hash ++ (" ".data) ++ msg],
       ainsert acc.2 hash (none, e.newAuthor))
    else
      (acc.1 ++ [("pick ".data) ++ hash ++ (" ".data) ++ msg], acc.2)

/-- The full todo translation: fold `entryStep` over the client entries. -/
def buildTodo (entries : List RebaseTodoEntry) :
    List Str × List (Str × Option Str × Option Str) :=
  entries.foldl entryStep ([], [])

/-- C4: the todo translation maps each client entry to at most one native
instruction line: a Drop entry (or blank hash) produces nothing; a Reword
entry produces an `edit <hash> <subject>` line and records (new message, new
author) in the reword map under the hash; Squash and Fixup entries both
produce a `fixup` line; a Pick entry carrying a new author but no new
message produces an `edit` line plus a reword-map entry with the message
unset. -/
theorem todo_translation_per_entry
    (acc : List Str × List (Str × Option Str × Option Str)) (e : RebaseTodoEntry) :
    ((entryStep acc e).1.length ≤ acc.1.length + 1) ∧
    (buildTodo [e] = entryStep ([], []) e) ∧
    (trimL e.hash = [] → entryStep acc e = acc) ∧
    (lowerL (trimL e.action) = "drop".data → entryStep acc e = acc) ∧
    (lowerL (trimL e.action) = "reword".data → trimL e.hash ≠ [] →
      entryStep acc e =
        (acc.1 ++ [("edit ".data) ++ trimL e.hash ++ (" ".data) ++ e.originalMessage.getD []],
         ainsert acc.2 (trimL e.hash) (e.newMessage, e.newAuthor))) ∧
    ((lowerL (trimL e.action) = "squash".data ∨ lowerL (trimL e.action) = "fixup".data) →
      trimL e.hash ≠ [] →
      entryStep acc e =
        (acc.1 ++ [("fixup ".data) ++ trimL e.hash ++ (" ".data) ++ e.originalMessage.getD []],
         acc.2)) ∧
    (lowerL (trimL e.action) = "pick".data → trimL e.hash ≠ [] →
      e.newAuthor.isSome = true → e.newMessage = none →
      entryStep acc e =
        (acc.1 ++ [("edit ".data) ++ trimL e.hash ++ (" ".data) ++ e.originalMessage.getD []],
         ainsert acc.2 (trimL e.hash) (none, e.newAuthor))) := by
  refine ⟨?_, rfl, ?_, ?_, ?_, ?_, ?_⟩
  · unfold entryStep
    by_cases h0 : trimL e.hash = [] <;> simp [h0] <;>
      by_cases h1 : lowerL (trimL e.action) = "drop".data <;> simp [h1] <;>
      by_cases h2 : lowerL (trimL e.action) = "reword".data <;> simp [h2] <;>
      by_cases h3 : lowerL (trimL e.action) = "edit".data <;> simp [h3] <;>
      by_cases h4 : lowerL (trimL e.action) = "squash".data <;> simp [h4] <;>
      by_cases h5 : lowerL (trimL e.action) = "fixup".data <;> simp [h5] <;>
      by_cases h6 : e.newAuthor.isSome <;> simp [h6]
  · intro h
    unfold entryStep
    simp [h]
  · intro h
    unfold entryStep
    by_cases h0 : trimL e.hash = [] <;> simp [h0, h]
  · intro h hh
    unfold entryStep
    simp [h, hh]
  · intro h hh
    unfold entryStep
    rcases h with h | h <;> simp [h, hh]
  · intro h hh ha hm
    unfold entryStep
    simp [h, hh, ha, hm]

/-- Witness for C4: translating a single `Reword` entry at a concrete
accumulator produces the `edit` line and the reword-map record. -/
theorem todo_translation_per_entry_witness :
    entryStep ([], [])
      { action := "Reword ".data, hash := " abc ".data, shortHash := none
        originalMessage := some ("s".data), newMessage := some ("m".data)
        newAuthor := none } =
      ([("edit ".data) ++ trimL (" abc ".data) ++ (" ".data) ++ "s".data],
       ainsert [] (trimL (" abc ".data)) (some ("m".data), none)) :=
  (todo_translation_per_entry ([], [])
    { action := "Reword ".data, hash := " abc ".data, shortHash := none
      originalMessage := some ("s".data), newMessage := some ("m".data)
      newAuthor := none }).2.2.2.2.1 (by decide) (by decide)

/-- Observable outcome of `git_interactive_rebase_start` up to the decision
the claim is about: an early error, the degenerate hard reset of the branch
tip to the base (with the returned status and message), or the start of a
native rebase driven by the translated todo lines. -/
inductive StartOutcome where
  | err (msg : Str)
  | hardReset (base : Str) (status : Str) (message : Str)
  | runRebase (todo : List Str)
deriving Repr, DecidableEq

/-- Model of `git_interactive_rebase_start` (`interactive_rebase.rs:360`)
through its translation phase: guards, todo translation, and the
empty-instruction-list decision (`interactive_rebase.rs:445`).  The
non-empty branch is abstracted to the fact that a native rebase is started
with the injected todo lines. -/
def gitInteractiveRebaseStart (r : Repo) (base : Str)
    (entries : List RebaseTodoEntry) : StartOutcome :=
  if ¬ r.isWorktree then
    StartOutcome.err ("Selected path is not a Git working tree.".data)
  else if entries = [] then
    StartOutcome.err ("No commits selected for rebase.".data)
  else if isRebaseInProgress r then
    StartOutcome.err ("A rebase is already in progress.".data)
  else if isMergeInProgress r then
    StartOutcome.err ("A merge is in progress. Resolve it first.".data)
  else
    let tl := (buildTodo entries).1
    if tl = [] then
      match r.run (["reset".data, "--hard".data, trimL base]) with
      | none => StartOutcome.err ("Failed to reset to base".data)
      | some o =>
        if o.success then
          StartOutcome.hardReset (trimL base) ("completed".data)
            ("All selected commits were dropped.".data)
        else
          StartOutcome.err (("Failed to drop commits: ".data) ++ trimRightL o.stderr)
    else StartOutcome.runRebase tl

/-- A dropped entry (blank hash or `drop` action) leaves the translation
accumulator unchanged. -/
theorem entryStep_dropped (acc : List Str × List (Str × Option Str × Option Str))
    (e : RebaseTodoEntry)
    (h : trimL e.hash = [] ∨ lowerL (trimL e.action) = "drop".data) :
    entryStep acc e = acc := by
  unfold entryStep
  rcases h with h | h
  · simp [h]
  · by_cases h0 : trimL e.hash = [] <;> simp [h0, h]

/-- A non-dropped entry appends a line, so empty output forces every entry
to be dropped. -/
theorem entryStep_lines_nil (acc : List Str × List (Str × Option Str × Option Str))
    (e : RebaseTodoEntry) (h : (entryStep acc e).1 = []) :
    acc.1 = [] ∧ (trimL e.hash = [] ∨ lowerL (trimL e.action) = "drop".data) := by
  by_cases h0 : trimL e.hash = []
  · rw [entryStep_dropped acc e (Or.inl h0)] at h
    exact ⟨h, Or.inl h0⟩
  · by_cases h1 : lowerL (trimL e.action) = "drop".data
    · rw [entryStep_dropped acc e (Or.inr h1)] at h
      exact ⟨h, Or.inr h1⟩
    · exfalso
      unfold entryStep at h
      by_cases h2 : lowerL (trimL e.action) = "reword".data <;>
        by_cases h3 : lowerL (trimL e.action) = "edit".data <;>
        by_cases h4 : lowerL (trimL e.action) = "squash".data <;>
        by_cases h5 : lowerL (trimL e.action) = "fixup".data <;>
        by_cases h6 : e.newAuthor.isSome <;>
        simp [h0, h1, h2, h3, h4, h5, h6] at h

/-- Folding the translation over dropped-only entries keeps the accumulator. -/
theorem buildTodo_all_dropped (entries : List RebaseTodoEntry)
    (acc : List Str × List (Str × Option Str × Option Str))
    (hall : ∀ e ∈ entries, trimL e.hash = [] ∨ lowerL (trimL e.action) = "drop".data) :
    entries.foldl entryStep acc = acc := by
  induction entries generalizing acc with
  | nil => rfl
  | cons e t ih =>
    rw [List.foldl_cons, entryStep_dropped acc e (hall e (List.mem_cons_self e t))]
    exact ih acc (fun x hx => hall x (List.mem_cons_of_mem e hx))

/-- If the fold of the translation produces no lines, the starting lines
were empty and every folded entry was dropped. -/
theorem foldl_entryStep_lines_nil (entries : List RebaseTodoEntry) :
    ∀ acc : List Str × List (Str × Option Str × Option Str),
      (entries.foldl entryStep acc).1 = [] →
      acc.1 = [] ∧
        ∀ e ∈ entries, trimL e.hash = [] ∨ lowerL (trimL e.action) = "drop".data := by
  induction entries with
  | nil => intro acc h; exact ⟨h, by intro e he; simp at he⟩
  | cons x t ih =>
    intro acc h
    rw [List.foldl_cons] at h
    obtain ⟨hx, ht⟩ := ih (entryStep acc x) h
    obtain ⟨hacc, hdx⟩ := entryStep_lines_nil acc x hx
    refine ⟨hacc, ?_⟩
    intro e he
    rcases List.mem_cons.mp he with he | he
    · subst he; exact hdx
    · exact ht e he

/-- Empty translated lines hold exactly when every entry is dropped. -/
theorem buildTodo_nil_iff (entries : List RebaseTodoEntry) :
    (buildTodo entries).1 = [] ↔
      ∀ e ∈ entries, trimL e.hash = [] ∨ lowerL (trimL e.action) = "drop".data := by
  constructor
  · intro h
    exact (foldl_entryStep_lines_nil entries ([], []) h).2
  · intro hall
    exact congrArg Prod.fst (buildTodo_all_dropped entries ([], []) hall)

/-- C5: when the client todo list is non-empty but translation yields an
empty instruction list — which happens exactly when every entry is a Drop
or has a blank hash — `startInteractiveRebase` runs no rebase: it hard
resets the branch tip to the base reference and returns status
`completed`. -/
theorem start_rebase_all_dropped (r : Repo) (base : Str)
    (entries : List RebaseTodoEntry) (o : ProcOut)
    (hw : r.isWorktree = true)
    (hne : entries ≠ [])
    (hnr : isRebaseInProgress r = false)
    (hnm : isMergeInProgress r = false)
    (hrun : r.run (["reset".data, "--hard".data, trimL base]) = some o)
    (hok : o.success = true) :
    ((buildTodo entries).1 = [] ↔
      ∀ e ∈ entries, trimL e.hash = [] ∨ lowerL (trimL e.action) = "drop".data) ∧
    ((buildTodo entries).1 = [] →
      gitInteractiveRebaseStart r base entries =
        StartOutcome.hardReset (trimL base) ("completed".data)
          ("All selected commits were dropped.".data)) := by
  refine ⟨buildTodo_nil_iff entries, ?_⟩
  intro hnil
  unfold gitInteractiveRebaseStart
  rw [if_neg (by simp [hw]), if_neg hne, if_neg (by simp [hnr]),
    if_neg (by simp [hnm])]
  simp only [hnil, if_pos, hrun]
  rw [if_pos hok]

/-- Repository used by the C5 witness: idle worktree whose reset call
succeeds. -/
def c5Repo : Repo :=
  { repoPath := "/r".data
    isWorktree := true
    revResolvable := fun _ => false
    amApplying := false
    unmergedFiles := []
    statusZ := some (true, [])
    lsFilesU := some (true, [])
    showBytes := fun _ _ => []
    existsAtRev := fun _ _ => false
    diffTheirs := fun _ => none
    workRead := fun _ => ReadRes.notFound
    run := fun _ => some { success := true, code := some 0, stdout := [], stderr := [] }
    lsTreeHead := none
    hashObject := none
    fsExists := fun _ => false }

/-- A one-entry todo list whose single entry is a Drop. -/
def c5Entries : List RebaseTodoEntry :=
  [{ action := "Drop".data, hash := "abc".data, shortHash := none
     originalMessage := none, newMessage := none, newAuthor := none }]

/-- Witness for C5: with every entry dropped, the start command hard-resets
to the base and reports `completed`. -/
theorem start_rebase_all_dropped_witness :
    ((buildTodo c5Entries).1 = [] ↔
      ∀ e ∈ c5Entries, trimL e.hash = [] ∨ lowerL (trimL e.action) = "drop".data) ∧
    ((buildTodo c5Entries).1 = [] →
      gitInteractiveRebaseStart c5Repo ("base".data) c5Entries =
        StartOutcome.hardReset (trimL ("base".data)) ("completed".data)
          ("All selected commits were dropped.".data)) :=
  start_rebase_all_dropped c5Repo ("base".data) c5Entries
    { success := true, code := some 0, stdout := [], stderr := [] }
    rfl (by decide) rfl rfl rfl rfl

/-- Failure diagnostic selection of the continue path: stderr if non-empty
after trailing-whitespace trim, else stdout (`conflicts.rs:564`). -/
def msgOf (o : ProcOut) : Str :=
  if trimRightL o.stderr ≠ [] then trimRightL o.stderr else trimRightL o.stdout

/-- Success output selection: stdout if non-empty, else stderr
(`conflicts.rs:559`). -/
def okOutText (o : ProcOut) : Str :=
  if trimRightL o.stdout ≠ [] then trimRightL o.stdout else trimRightL o.stderr

/-- The retry predicate of `git_rebase_continue_with_message`
(`conflicts.rs:570`): the lower-cased diagnostic mentions an unknown option
or the `no-edit` flag. -/
def indicatesNoEditUnsupported (msg : Str) : Bool :=
  containsSub (lowerL msg) ("unknown option".data) ||
    containsSub (lowerL msg) ("no-edit".data)

/-- Outcome of the continue orchestration: the `git rebase` invocations
attempted, in order, and the surfaced result. -/
structure ContinueOutcome where
  attempts : List (List Str)
  result : Except Str Str
deriving Repr, DecidableEq

/-- Model of `git_rebase_continue_with_message` (`conflicts.rs:532`): run
`rebase --continue --no-edit`; on success return its output; on failure
retry exactly once without `--no-edit` when the diagnostic indicates the
flag is unsupported, otherwise surface the diagnostic.  The message-file
persistence preceding the invocation is a non-failing side effect not
modelled here. -/
def gitRebaseContinueWithMessage (r : Repo) (_message : Str) : ContinueOutcome :=
  if ¬ r.isWorktree then
    ⟨[], Except.error ("Selected path is not a Git working tree.".data)⟩
  else if ¬ isRebaseInProgress r then
    ⟨[], Except.error ("No rebase in progress.".data)⟩
  else
    let a1 := ["rebase".data, "--continue".data, "--no-edit".data]
    match r.run a1 with
    | none => ⟨[a1], Except.error ("Failed to spawn git rebase --continue".data)⟩
    | some o1 =>
      if o1.success then ⟨[a1], Except.ok (okOutText o1)⟩
      else
        let msg := msgOf o1
        if indicatesNoEditUnsupported msg then
          let a2 := ["rebase".data, "--continue".data]
          match r.run a2 with
          | none =>
            ⟨[a1, a2], Except.error ("Failed to spawn git rebase --continue".data)⟩
          | some o2 =>
            if o2.success then ⟨[a1, a2], Except.ok (okOutText o2)⟩
            else ⟨[a1, a2], Except.error (msgOf o2)⟩
        else ⟨[a1], Except.error msg⟩

/-- Lexicographic byte order on strings (Rust `Vec::<String>::sort`). -/
def lexLe : Str → Str → Bool
  | [], _ => true
  | _ :: _, [] => false
  | a :: as, b :: bs =>
    if a.toNat < b.toNat then true
    else if b.toNat < a.toNat then false
    else lexLe as bs

/-- Remove adjacent duplicates (Rust `Vec::dedup` after a sort). -/
def dedupAdj : List Str → List Str
  | [] => []
  | [x] => [x]
  | x :: y :: t => if x = y then dedupAdj (y :: t) else x :: dedupAdj (y :: t)

/-- File list of the modern `merge-tree --name-only` output
(`lib.rs:763`): non-empty trimmed lines, sorted, deduplicated. -/
def predictFirstFiles (out : Str) : List Str :=
  dedupAdj (List.insertionSort (fun a b => lexLe a b = true)
    (((linesOf out).map trimL).filter (fun l => l ≠ [])))

/-- File list of the legacy `merge-tree` output (`lib.rs:784`): last
whitespace token of each `base `/`our `/`their ` line, first-seen order,
then sorted and deduplicated. -/
def predictSecondFiles (out : Str) : List Str :=
  dedupAdj (List.insertionSort (fun a b => lexLe a b = true)
    ((linesOf out).foldl (fun acc line =>
      let t := trimL line
      if startsWithL ("base ".data) t || startsWithL ("our ".data) t ||
          startsWithL ("their ".data) t then
        match (splitWS t).getLast? with
        | some p => if p ≠ [] ∧ p ∉ acc then acc ++ [p] else acc
        | none => acc
      else acc) []))

/-- Model of `predict_merge_conflicts` (`lib.rs:753`): find the merge base,
try `merge-tree --name-only`, and when that invocation does not succeed fall
back to a second invocation of the legacy `merge-tree` form.  Returns the
`merge-tree` invocations attempted, in order, and the predicted files. -/
def predictMergeConflicts (r : Repo) (upstream : Str) : List (List Str) × List Str :=
  match runGitE r (["merge-base".data, "HEAD".data, upstream]) with
  | Except.error _ => ([], [])
  | Except.ok base =>
    if trimL base = [] then ([], [])
    else
      let a1 := ["merge-tree".data, "--name-only".data, base, "HEAD".data, upstream]
      let a2 := ["merge-tree".data, base, "HEAD".data, upstream]
      let second : List (List Str) → List (List Str) × List Str := fun attempts =>
        match r.run a2 with
        | none => (attempts ++ [a2], [])
        | some o2 =>
          if o2.success then (attempts ++ [a2], predictSecondFiles (trimRightL o2.stdout))
          else (attempts ++ [a2], [])
      match r.run a1 with
      | none => second [a1]
      | some o1 =>
        if o1.success then ([a1], predictFirstFiles (trimRightL o1.stdout))
        else second [a1]

/-- Repository whose first `merge-tree --name-only` invocation fails, making
the conflict predictor fall back to the legacy invocation. -/
def c7PredictRepo : Repo :=
  { repoPath := "/r".data
    isWorktree := true
    revResolvable := fun _ => false
    amApplying := false
    unmergedFiles := []
    statusZ := some (true, [])
    lsFilesU := some (true, [])
    showBytes := fun _ _ => []
    existsAtRev := fun _ _ => false
    diffTheirs := fun _ => none
    workRead := fun _ => ReadRes.notFound
    run := fun args =>
      if args == ["merge-base".data, "HEAD".data, "up".data] then
        some { success := true, code := some 0, stdout := "B".data, stderr := [] }
      else if args == ["merge-tree".data, "--name-only".data, "B".data,
          "HEAD".data, "up".data] then
        some { success := false, code := some 129, stdout := [], stderr := "usage".data }
      else if args == ["merge-tree".data, "B".data, "HEAD".data, "up".data] then
        some { success := true, code := some 0, stdout := [], stderr := [] }
      else none
    lsTreeHead := none
    hashObject := none
    fsExists := fun _ => false }

/-- C7 counterexample: the claim says no operation other than rebase
continue performs an automatic retry, but `predict_merge_conflicts` retries
the `merge-tree` invocation in its legacy form after the modern form
fails — two invocations for one query. -/
theorem predict_merge_conflicts_retries_counterexample :
    (predictMergeConflicts c7PredictRepo ("up".data)).1 =
      [["merge-tree".data, "--name-only".data, "B".data, "HEAD".data, "up".data],
       ["merge-tree".data, "B".data, "HEAD".data, "up".data]] := by
  decide

/-- C7 amended: when `rebase --continue --no-edit` fails and the diagnostic
indicates an unsupported flag, the orchestrator retries exactly once without
`--no-edit` before surfacing anything; when the diagnostic does not indicate
an unsupported flag the failure is surfaced without retrying; the continue
succeeds on first attempt with a single invocation.  (The system-wide
uniqueness of this retry is dropped: conflict prediction also retries.) -/
theorem rebase_continue_retry_once (r : Repo) (m : Str) (o1 : ProcOut)
    (hw : r.isWorktree = true)
    (hr : isRebaseInProgress r = true)
    (h1 : r.run (["rebase".data, "--continue".data, "--no-edit".data]) = some o1) :
    (o1.success = true →
      (gitRebaseContinueWithMessage r m).attempts =
        [["rebase".data, "--continue".data, "--no-edit".data]]) ∧
    (o1.success = false → indicatesNoEditUnsupported (msgOf o1) = true →
      (gitRebaseContinueWithMessage r m).attempts =
        [["rebase".data, "--continue".data, "--no-edit".data],
         ["rebase".data, "--continue".data]]) ∧
    (o1.success = false → indicatesNoEditUnsupported (msgOf o1) = false →
      (gitRebaseContinueWithMessage r m).attempts =
        [["rebase".data, "--continue".data, "--no-edit".data]] ∧
      (gitRebaseContinueWithMessage r m).result = Except.error (msgOf o1)) := by
  unfold gitRebaseContinueWithMessage
  rw [if_neg (by simp [hw]), if_neg (by simp [hr])]
  simp only [h1]
  refine ⟨?_, ?_, ?_⟩
  · intro hs
    rw [if_pos hs]
  · intro hs hind
    rw [if_neg (by simp [hs]), if_pos hind]
    cases h2 : r.run (["rebase".data, "--continue".data]) with
    | none => rfl
    | some o2 => by_cases h2s : o2.success = true <;> simp [h2s]
  · intro hs hind
    rw [if_neg (by simp [hs]), if_neg (by simp [hind])]
    exact ⟨rfl, rfl⟩

/-- Repository whose `--no-edit` continue fails with an unsupported-option
diagnostic and whose plain continue succeeds. -/
def c7ContinueRepo : Repo :=
  { repoPath := "/r".data
    isWorktree := true
    revResolvable := fun rev => rev == "REBASE_HEAD".data
    amApplying := false
    unmergedFiles := []
    statusZ := some (true, [])
    lsFilesU := some (true, [])
    showBytes := fun _ _ => []
    existsAtRev := fun _ _ => false
    diffTheirs := fun _ => none
    workRead := fun _ => ReadRes.notFound
    run := fun args =>
      if args == ["rebase".data, "--continue".data, "--no-edit".data] then
        some { success := false, code := some 129, stdout := [],
               stderr := "error: unknown option `no-edit`".data }
      else if args == ["rebase".data, "--continue".data] then
        some { success := true, code := some 0, stdout := "done".data, stderr := [] }
      else none
    lsTreeHead := none
    hashObject := none
    fsExists := fun _ => false }

/-- Witness for the C7 amended theorem: on `c7ContinueRepo` the failing
`--no-edit` attempt is followed by exactly one retry without the flag. -/
theorem rebase_continue_retry_once_witness :
    (gitRebaseContinueWithMessage c7ContinueRepo ("msg".data)).attempts =
      [["rebase".data, "--continue".data, "--no-edit".data],
       ["rebase".data, "--continue".data]] :=
  (rebase_continue_retry_once c7ContinueRepo ("msg".data)
    { success := false, code := some 129, stdout := [],
      stderr := "error: unknown option `no-edit`".data }
    rfl rfl rfl).2.1 rfl (by decide)

/-- The double-quote character. -/
def dquoteC : Char := Char.ofNat 34

/-- The backslash character. -/
def bslashC : Char := Char.ofNat 92

/-- The opening-brace character. -/
def lbraceC : Char := Char.ofNat 123

/-- The closing-brace character. -/
def rbraceC : Char := Char.ofNat 125

/-- Lower-case hex digit for a value below 16 (serde_json's digit table). -/
def hexDigitChar (n : Nat) : Char :=
  Char.ofNat (if n < 10 then 48 + n else 87 + n)

/-- Hex digit value of a character. -/
def hexVal (c : Char) : Option Nat :=
  if 48 ≤ c.toNat ∧ c.toNat ≤ 57 then some (c.toNat - 48)
  else if 97 ≤ c.toNat ∧ c.toNat ≤ 102 then some (c.toNat - 87)
  else if 65 ≤ c.toNat ∧ c.toNat ≤ 70 then some (c.toNat - 55)
  else none

/-- JSON string escaping of one character as serde_json emits it: quote and
backslash escaped, the named control escapes, other control characters as
`u00XX`, everything else verbatim. -/
def jsonEscapeChar (c : Char) : Str :=
  if c = dquoteC then [bslashC, dquoteC]
  else if c = bslashC then [bslashC, bslashC]
  else if c = '\n' then [bslashC, 'n']
  else if c = '\r' then [bslashC, 'r']
  else if c = '\t' then [bslashC, 't']
  else if c.toNat = 8 then [bslashC, 'b']
  else if c.toNat = 12 then [bslashC, 'f']
  else if c.toNat < 32 then
    [bslashC, 'u', '0', '0', hexDigitChar (c.toNat / 16), hexDigitChar (c.toNat % 16)]
  else [c]

/-- JSON encoding of a string value. -/
def jsonEncStr (s : Str) : Str :=
  dquoteC :: (s.flatMap jsonEscapeChar) ++ [dquoteC]

/-- JSON encoding of an optional string (`null` or a string). -/
def jsonEncOpt : Option Str → Str
  | none => "null".data
  | some s => jsonEncStr s

/-- JSON encoding of one reword-map entry: serde_json encodes the
`(Option<String>, Option<String>)` tuple value as a two-element array. -/
def jsonEncEntry (kv : Str × Option Str × Option Str) : Str :=
  jsonEncStr kv.1 ++ (":[".data) ++ jsonEncOpt kv.2.1 ++ (",".data) ++
    jsonEncOpt kv.2.2 ++ ("]".data)

/-- JSON encoding of the whole reword map, modelling
`serde_json::to_string` of the `HashMap` in `save_reword_map`
(`interactive_rebase.rs:93`); the map is an association list iterated in
insertion order. -/
def jsonEncMap (m : List (Str × Option Str × Option Str)) : Str :=
  lbraceC :: joinWith ',' (m.map jsonEncEntry) ++ [rbraceC]

/-- The text `save_reword_map` writes to the side file. -/
def saveRewordMapText (m : List (Str × Option Str × Option Str)) : Str :=
  jsonEncMap m

/-- Named single-character escapes accepted by the JSON string parser. -/
def unescSimple (e : Char) : Option Char :=
  if e = dquoteC then some dquoteC
  else if e = bslashC then some bslashC
  else if e = '/' then some '/'
  else if e = 'n' then some '\n'
  else if e = 'r' then some '\r'
  else if e = 't' then some '\t'
  else if e = 'b' then some (Char.ofNat 8)
  else if e = 'f' then some (Char.ofNat 12)
  else none

/-- JSON string-body parser (after the opening quote): returns the decoded
string and the remaining input after the closing quote. -/
def parseStrAux : Str → Option (Str × Str)
  | [] => none
  | c :: rest =>
    if c = dquoteC then some ([], rest)
    else if c = bslashC then
      match rest with
      | [] => none
      | e :: rest1 =>
        if e = 'u' then
          match rest1 with
          | d1 :: d2 :: d3 :: d4 :: rest2 =>
            match hexVal d1, hexVal d2, hexVal d3, hexVal d4 with
            | some a, some b, some c2, some d =>
              match parseStrAux rest2 with
              | some (s, r) => some (Char.ofNat (4096 * a + 256 * b + 16 * c2 + d) :: s, r)
              | none => none
            | _, _, _, _ => none
          | _ => none
        else
          match unescSimple e with
          | some uc =>
            match parseStrAux rest1 with
            | some (s, r) => some (uc :: s, r)
            | none => none
          | none => none
    else
      match parseStrAux rest with
      | some (s, r) => some (c :: s, r)
      | none => none

/-- JSON parser for `null` or a string, on the grammar the reword-map
encoder emits. -/
def parseJsonOpt (l : Str) : Option (Option Str × Str) :=
  match l with
  | [] => none
  | c :: rest =>
    if c = dquoteC then
      match parseStrAux rest with
      | some (s, r) => some (some s, r)
      | none => none
    else if c = 'n' then
      match rest with
      | u :: l1 :: l2 :: rest2 =>
        if u = 'u' ∧ l1 = 'l' ∧ l2 = 'l' then some (none, rest2) else none
      | _ => none
    else none

/-- Expect one specific character and return the remainder. -/
def expectChar (c : Char) (l : Str) : Option Str :=
  match l with
  | x :: rest => if x = c then some rest else none
  | [] => none

/-- Parser for one `"key":[v1,v2]` entry. -/
def parseJsonEntry (l : Str) : Option ((Str × Option Str × Option Str) × Str) :=
  match l with
  | [] => none
  | c :: rest =>
    if c = dquoteC then
      match parseStrAux rest with
      | none => none
      | some (k, r1) =>
        match expectChar ':' r1 with
        | none => none
        | some r2 =>
          match expectChar '[' r2 with
          | none => none
          | some r3 =>
            match parseJsonOpt r3 with
            | none => none
            | some (v1, r4) =>
              match expectChar ',' r4 with
              | none => none
              | some r5 =>
                match parseJsonOpt r5 with
                | none => none
                | some (v2, r6) =>
                  match expectChar ']' r6 with
                  | none => none
                  | some r7 => some ((k, v1, v2), r7)
    else none

/-- Parser for a comma-separated entry list; the fuel bounds the number of
entries and only needs to be large enough. -/
def parseJsonEntries : Nat → Str → Option (List (Str × Option Str × Option Str) × Str)
  | 0, _ => none
  | fuel + 1, l =>
    match parseJsonEntry l with
    | none => none
    | some (kv, r) =>
      match r with
      | [] => some ([kv], [])
      | x :: r2 =>
        if x = ',' then
          match parseJsonEntries fuel r2 with
          | some (es, r3) => some (kv :: es, r3)
          | none => none
        else some ([kv], x :: r2)

/-- Parser for the whole reword-map JSON document, modelling
`serde_json::from_str` in `load_reword_map` (`interactive_rebase.rs:99`) on
the grammar `save_reword_map` emits; trailing content rejects the
document. -/
def parseRewordMapStr (l : Str) : Option (List (Str × Option Str × Option Str)) :=
  match l with
  | [] => none
  | c :: rest =>
    if c = lbraceC then
      match rest with
      | [] => none
      | d :: rest2 =>
        if d = rbraceC then (if rest2 = [] then some [] else none)
        else
          match parseJsonEntries rest.length rest with
          | none => none
          | some (es, r) =>
            match expectChar rbraceC r with
            | some tail => if tail = [] then some es else none
            | none => none
    else none

/-- Model of `load_reword_map` applied to the side-file text: parse failure
degrades to the empty map (`unwrap_or_default`). -/
def loadRewordMapParse (s : Str) : List (Str × Option Str × Option Str) :=
  (parseRewordMapStr s).getD []

/-- The stopped-commit lookup of `auto_amend_reword_loop`
(`interactive_rebase.rs:576`): with a non-empty stopped hash, find an entry
whose stored hash and the stopped hash are prefix-compatible in either
direction. -/
def findRewordEntry (map : List (Str × Option Str × Option Str))
    (stoppedSha : Str) : Option (Option Str × Option Str) :=
  if stoppedSha ≠ [] then
    (map.find? (fun kv =>
      startsWithL stoppedSha kv.1 || startsWithL kv.1 stoppedSha)).map
      (fun kv => kv.2)
  else none

/-- Hex digits decode back to their value. -/
theorem hexVal_hexDigitChar (n : Nat) (h : n < 16) :
    hexVal (hexDigitChar n) = some n := by
  interval_cases n <;> decide

/-- Parsing the escape of one character conses that character onto the
parse of the remainder. -/
theorem parseStrAux_escape (c : Char) (t : Str) :
    parseStrAux (jsonEscapeChar c ++ t) =
      match parseStrAux t with
      | some (s, r) => some (c :: s, r)
      | none => none := by
  by_cases h1 : c = dquoteC
  · subst h1
    cases hp : parseStrAux t <;>
      rw [show jsonEscapeChar dquoteC = [bslashC, dquoteC] from rfl,
        List.cons_append, List.cons_append, List.nil_append, parseStrAux.eq_def] <;>
      simp [hp, show (bslashC = dquoteC) = False from by decide,
        show (dquoteC = 'u') = False from by decide,
        show unescSimple dquoteC = some dquoteC from by decide]
  · by_cases h2 : c = bslashC
    · subst h2
      cases hp : parseStrAux t <;>
        rw [show jsonEscapeChar bslashC = [bslashC, bslashC] from rfl,
          List.cons_append, List.cons_append, List.nil_append, parseStrAux.eq_def] <;>
        simp [hp, show (bslashC = dquoteC) = False from by decide,
          show (bslashC = 'u') = False from by decide,
          show unescSimple bslashC = some bslashC from by decide]
    · by_cases h3 : c = '\n'
      · subst h3
        cases hp : parseStrAux t <;>
          rw [show jsonEscapeChar '\n' = [bslashC, 'n'] from rfl,
            List.cons_append, List.cons_append, List.nil_append, parseStrAux.eq_def] <;>
          simp [hp, show (bslashC = dquoteC) = False from by decide,
            show ('n' = 'u') = False from by decide,
            show unescSimple 'n' = some '\n' from by decide]
      · by_cases h4 : c = '\r'
        · subst h4
          cases hp : parseStrAux t <;>
            rw [show jsonEscapeChar '\r' = [bslashC, 'r'] from rfl,
              List.cons_append, List.cons_append, List.nil_append, parseStrAux.eq_def] <;>
            simp [hp, show (bslashC = dquoteC) = False from by decide,
              show ('r' = 'u') = False from by decide,
              show unescSimple 'r' = some '\r' from by decide]
        · by_cases h5 : c = '\t'
          · subst h5
            cases hp : parseStrAux t <;>
              rw [show jsonEscapeChar '\t' = [bslashC, 't'] from rfl,
                List.cons_append, List.cons_append, List.nil_append, parseStrAux.eq_def] <;>
              simp [hp, show (bslashC = dquoteC) = False from by decide,
                show ('t' = 'u') = False from by decide,
                show unescSimple 't' = some '\t' from by decide]
          · by_cases h6 : c.toNat = 8
            · have hc : c = Char.ofNat 8 := by rw [← Char.ofNat_toNat c, h6]
              subst hc
              cases hp : parseStrAux t <;>
                rw [show jsonEscapeChar (Char.ofNat 8) = [bslashC, 'b'] from rfl,
                  List.cons_append, List.cons_append, List.nil_append, parseStrAux.eq_def] <;>
                simp [hp, show (bslashC = dquoteC) = False from by decide,
                  show ('b' = 'u') = False from by decide,
                  show unescSimple 'b' = some (Char.ofNat 8) from by decide]
            · by_cases h7 : c.toNat = 12
              · have hc : c = Char.ofNat 12 := by rw [← Char.ofNat_toNat c, h7]
                subst hc
                cases hp : parseStrAux t <;>
                  rw [show jsonEscapeChar (Char.ofNat 12) = [bslashC, 'f'] from rfl,
                    List.cons_append, List.cons_append, List.nil_append, parseStrAux.eq_def] <;>
                  simp [hp, show (bslashC = dquoteC) = False from by decide,
                    show ('f' = 'u') = False from by decide,
                    show unescSimple 'f' = some (Char.ofNat 12) from by decide]
              · by_cases h8 : c.toNat < 32
                · have hd3 : hexVal (hexDigitChar (c.toNat / 16)) = some (c.toNat / 16) :=
                    hexVal_hexDigitChar _ (by omega)
                  have hd4 : hexVal (hexDigitChar (c.toNat % 16)) = some (c.toNat % 16) :=
                    hexVal_hexDigitChar _ (by omega)
                  have harith : 4096 * 0 + 256 * 0 + 16 * (c.toNat / 16) + c.toNat % 16 =
                      c.toNat := by omega
                  have harith2 : 16 * (c.toNat / 16) + c.toNat % 16 = c.toNat := by omega
                  have hesc : jsonEscapeChar c =
                      [bslashC, 'u', '0', '0', hexDigitChar (c.toNat / 16),
                        hexDigitChar (c.toNat % 16)] := by
                    unfold jsonEscapeChar
                    rw [if_neg h1, if_neg h2, if_neg h3, if_neg h4, if_neg h5,
                      if_neg h6, if_neg h7, if_pos h8]
                  cases hp : parseStrAux t <;>
                    rw [hesc, List.cons_append, List.cons_append, List.cons_append,
                      List.cons_append, List.cons_append, List.cons_append,
                      List.nil_append, parseStrAux.eq_def] <;>
                    simp [hp, hd3, hd4, harith, harith2, Char.ofNat_toNat,
                      show (bslashC = dquoteC) = False from by decide,
                      show hexVal '0' = some 0 from by decide]
                · have hesc : jsonEscapeChar c = [c] := by
                    unfold jsonEscapeChar
                    rw [if_neg h1, if_neg h2, if_neg h3, if_neg h4, if_neg h5,
                      if_neg h6, if_neg h7, if_neg h8]
                  cases hp : parseStrAux t <;>
                    rw [hesc, List.cons_append, List.nil_append, parseStrAux.eq_def] <;>
                    simp [hp, h1, h2]

/-- Parsing an encoded string body recovers the string and the remainder. -/
theorem parseStrAux_enc (s t : Str) :
    parseStrAux (s.flatMap jsonEscapeChar ++ dquoteC :: t) = some (s, t) := by
  induction s with
  | nil =>
    rw [List.flatMap_nil, List.nil_append, parseStrAux.eq_def]
    simp
  | cons c s' ih =>
    rw [List.flatMap_cons, List.append_assoc, parseStrAux_escape, ih]

/-- Parsing an encoded optional value recovers it. -/
theorem parseJsonOpt_enc (v : Option Str) (t : Str) :
    parseJsonOpt (jsonEncOpt v ++ t) = some (v, t) := by
  cases v with
  | none =>
    rw [show jsonEncOpt none = ['n', 'u', 'l', 'l'] from rfl]
    rw [List.cons_append, List.cons_append, List.cons_append, List.cons_append,
      List.nil_append, parseJsonOpt.eq_def]
    simp [show ('n' = dquoteC) = False from by decide]
  | some s =>
    have hshape : jsonEncOpt (some s) ++ t =
        dquoteC :: (s.flatMap jsonEscapeChar ++ dquoteC :: t) := by
      rw [show jsonEncOpt (some s) = jsonEncStr s from rfl]
      unfold jsonEncStr
      simp [List.append_assoc]
    rw [hshape, parseJsonOpt.eq_def]
    simp [parseStrAux_enc]

/-- Parsing an encoded map entry recovers it. -/
theorem parseJsonEntry_enc (kv : Str × Option Str × Option Str) (t : Str) :
    parseJsonEntry (jsonEncEntry kv ++ t) = some (kv, t) := by
  obtain ⟨k, v1, v2⟩ := kv
  have hshape : jsonEncEntry (k, v1, v2) ++ t =
      dquoteC :: (k.flatMap jsonEscapeChar ++ dquoteC ::
        (':' :: '[' :: (jsonEncOpt v1 ++ ',' :: (jsonEncOpt v2 ++ ']' :: t)))) := by
    unfold jsonEncEntry jsonEncStr
    simp [List.append_assoc]
  rw [hshape, parseJsonEntry.eq_def]
  simp only [if_pos rfl, parseStrAux_enc]
  simp [expectChar, parseJsonOpt_enc]

/-- Parsing the encoded comma-joined entry list, followed by the closing
brace, recovers the entries whenever the fuel covers their number. -/
theorem parseJsonEntries_enc (m : List (Str × Option Str × Option Str)) :
    ∀ fuel t, m ≠ [] → m.length ≤ fuel →
      parseJsonEntries fuel (joinWith ',' (m.map jsonEncEntry) ++ rbraceC :: t) =
        some (m, rbraceC :: t) := by
  induction m with
  | nil => intro fuel t h _; exact absurd rfl h
  | cons kv m' ih =>
    intro fuel t _ hfuel
    cases fuel with
    | zero => simp at hfuel
    | succ f =>
      cases m' with
      | nil =>
        rw [show joinWith ',' ([kv].map jsonEncEntry) = jsonEncEntry kv from rfl]
        rw [parseJsonEntries.eq_def]
        simp [parseJsonEntry_enc, show (rbraceC = ',') = False from by decide]
      | cons kv2 m'' =>
        have hj : joinWith ',' ((kv :: kv2 :: m'').map jsonEncEntry) ++ rbraceC :: t =
            jsonEncEntry kv ++ (',' ::
              (joinWith ',' ((kv2 :: m'').map jsonEncEntry) ++ rbraceC :: t)) := by
          rw [show joinWith ',' ((kv :: kv2 :: m'').map jsonEncEntry) =
            jsonEncEntry kv ++ ',' :: joinWith ',' ((kv2 :: m'').map jsonEncEntry)
            from rfl]
          simp [List.append_assoc]
        rw [hj, parseJsonEntries.eq_def]
        simp only [parseJsonEntry_enc]
        rw [ih f t (by simp) (by simp only [List.length_cons] at hfuel ⊢; omega)]
        simp

/-- Each encoded entry is non-empty, so the joined encoding is at least as
long as the entry count. -/
theorem encEntries_length (m : List (Str × Option Str × Option Str)) :
    m.length ≤ (joinWith ',' (m.map jsonEncEntry)).length := by
  induction m with
  | nil => simp [joinWith]
  | cons kv m' ih =>
    cases m' with
    | nil =>
      rw [show joinWith ',' ([kv].map jsonEncEntry) = jsonEncEntry kv from rfl]
      have : 1 ≤ (jsonEncEntry kv).length := by
        unfold jsonEncEntry jsonEncStr
        simp
      simpa using this
    | cons kv2 m'' =>
      rw [show joinWith ',' ((kv :: kv2 :: m'').map jsonEncEntry) =
        jsonEncEntry kv ++ ',' :: joinWith ',' ((kv2 :: m'').map jsonEncEntry)
        from rfl]
      simp only [List.length_append, List.length_cons] at ih ⊢
      omega

/-- Head shape of the joined encoding: it starts with a double quote. -/
theorem encEntries_head (kv : Str × Option Str × Option Str)
    (m' : List (Str × Option Str × Option Str)) :
    ∃ z, joinWith ',' ((kv :: m').map jsonEncEntry) = dquoteC :: z := by
  cases m' with
  | nil =>
    refine ⟨(kv.1.flatMap jsonEscapeChar ++ [dquoteC]) ++ (":[".data) ++
      jsonEncOpt kv.2.1 ++ (",".data) ++ jsonEncOpt kv.2.2 ++ ("]".data), ?_⟩
    rw [show joinWith ',' ([kv].map jsonEncEntry) = jsonEncEntry kv from rfl]
    unfold jsonEncEntry jsonEncStr
    simp [List.append_assoc]
  | cons kv2 m'' =>
    refine ⟨((kv.1.flatMap jsonEscapeChar ++ [dquoteC]) ++ (":[".data) ++
      jsonEncOpt kv.2.1 ++ (",".data) ++ jsonEncOpt kv.2.2 ++ ("]".data)) ++
      ',' :: joinWith ',' ((kv2 :: m'').map jsonEncEntry), ?_⟩
    rw [show joinWith ',' ((kv :: kv2 :: m'').map jsonEncEntry) =
      jsonEncEntry kv ++ ',' :: joinWith ',' ((kv2 :: m'').map jsonEncEntry)
      from rfl]
    unfold jsonEncEntry jsonEncStr
    simp [List.append_assoc]

/-- Saving the reword map and parsing it back yields the same map. -/
theorem loadRewordMapParse_save (m : List (Str × Option Str × Option Str)) :
    loadRewordMapParse (saveRewordMapText m) = m := by
  cases m with
  | nil => rfl
  | cons kv m' =>
    unfold loadRewordMapParse saveRewordMapText jsonEncMap
    obtain ⟨z, hz⟩ := encEntries_head kv m'
    rw [hz]
    simp only [List.cons_append, parseRewordMapStr,
      show (dquoteC = rbraceC) = False from by decide, if_false, if_pos rfl]
    rw [← List.cons_append, ← hz]
    rw [parseJsonEntries_enc (kv :: m') _ [] (by simp)
      (by
        have h1 := encEntries_length (kv :: m')
        simp only [List.length_append, List.length_cons] at h1 ⊢
        omega)]
    simp [expectChar]

/-- C6: saving the reword map to its side file and loading it back yields
the same hash-to-(message, author) mapping, and the auto-continue loop
resolves a stopped commit against the map by prefix-tolerant matching — an
entry is selected exactly when some stored hash is a prefix of the stopped
hash or the stopped hash is a prefix of the stored hash. -/
theorem reword_map_roundtrip_and_prefix
    (m : List (Str × Option Str × Option Str)) (sha : Str) (hsha : sha ≠ []) :
    loadRewordMapParse (saveRewordMapText m) = m ∧
    ((findRewordEntry m sha).isSome = true ↔
      ∃ kv ∈ m, sha <+: kv.1 ∨ kv.1 <+: sha) := by
  refine ⟨loadRewordMapParse_save m, ?_⟩
  unfold findRewordEntry
  rw [if_pos hsha]
  simp [List.find?_isSome, startsWithL]

/-- The reword map used by the C6 witness. -/
def c6Map : List (Str × Option Str × Option Str) :=
  [("abc0".data, (some ("new message".data), some ("A <a@b>".data))),
   ("def1".data, (none, some ("B <b@c>".data)))]

/-- Witness for C6 at a concrete two-entry map and the abbreviated stopped
hash `ab`. -/
theorem reword_map_roundtrip_and_prefix_witness :
    loadRewordMapParse (saveRewordMapText c6Map) = c6Map ∧
    ((findRewordEntry c6Map ("ab".data)).isSome = true ↔
      ∃ kv ∈ c6Map, ("ab".data : Str) <+: kv.1 ∨ kv.1 <+: ("ab".data : Str)) :=
  reword_map_roundtrip_and_prefix c6Map ("ab".data) (by decide)

/-- A status entry of `git_status` (`GitStatusEntry`, `status.rs:3`). -/
structure GitStatusEntry where
  status : Str
  path : Str
  oldPath : Option Str
deriving Repr, DecidableEq

/-- First status byte, blank when missing (`status.rs:120`). -/
def statusChar0 (e : GitStatusEntry) : Char := e.status.getD 0 ' '

/-- Second status byte, blank when missing (`status.rs:121`). -/
def statusChar1 (e : GitStatusEntry) : Char := e.status.getD 1 ' '

/-- Is the entry already a rename/copy (skipped by the reconciliation pass,
`status.rs:124`)? -/
def entryIsRC (e : GitStatusEntry) : Bool :=
  statusChar0 e == 'R' || statusChar1 e == 'R' ||
    statusChar0 e == 'C' || statusChar1 e == 'C'

/-- Deletion-flavoured entry (`status.rs:128`). -/
def entryIsDel (e : GitStatusEntry) : Bool :=
  !entryIsRC e && (statusChar0 e == 'D' || statusChar1 e == 'D')

/-- Addition/untracked-flavoured entry (`status.rs:131`). -/
def entryIsAdd (e : GitStatusEntry) : Bool :=
  !entryIsRC e &&
    (e.status == "??".data || statusChar0 e == 'A' || statusChar1 e == 'A')

/-- Indices (from `start`) of the entries satisfying a predicate. -/
def idxFilter (p : GitStatusEntry → Bool) : Nat → List GitStatusEntry → List Nat
  | _, [] => []
  | i, e :: rest =>
    if p e then i :: idxFilter p (i + 1) rest else idxFilter p (i + 1) rest

/-- The `del_indices` of `detect_unstaged_renames` (`status.rs:115`). -/
def delIndices (entries : List GitStatusEntry) : List Nat :=
  idxFilter entryIsDel 0 entries

/-- The `add_indices` of `detect_unstaged_renames` (`status.rs:116`). -/
def addIndices (entries : List GitStatusEntry) : List Nat :=
  idxFilter entryIsAdd 0 entries

/-- Parse one `git ls-tree` line to `(path, blob hash)`
(`status.rs:149`). -/
def parseLsTreeLine (line : Str) : Option (Str × Str) :=
  match splitOnChar '\t' line with
  | meta :: r1 :: rs =>
    let path := joinWith '\t' (r1 :: rs)
    let parts := splitWS meta
    if 3 ≤ parts.length then some (path, parts.getD 2 []) else none
  | _ => none

/-- The dummy entry used for out-of-range index access in the model. -/
def dfltEntry : GitStatusEntry := { status := [], path := [], oldPath := none }

/-- The `head_hash_by_del_idx` map of `detect_unstaged_renames`
(`status.rs:141`): HEAD blob hashes of the deleted paths, keyed by entry
index; every `ls-tree` failure mode yields the empty map. -/
def computeHeadHash (r : Repo) (entries : List GitStatusEntry)
    (delIdx : List Nat) : List (Nat × Str) :=
  match r.lsTreeHead with
  | none => []
  | some out =>
    (linesOf out).foldl (fun m line =>
      match parseLsTreeLine line with
      | none => m
      | some ph =>
        delIdx.foldl (fun m2 idx =>
          if (entries.getD idx dfltEntry).path = ph.1 then ainsert m2 idx ph.2
          else m2) m) []

/-- The `work_hash_by_add_idx` map of `detect_unstaged_renames`
(`status.rs:174`): working-tree content hashes keyed by add-entry index;
lines pair with the add indices positionally. -/
def computeWorkHash (r : Repo) (_entries : List GitStatusEntry)
    (addIdx : List Nat) : List (Nat × Str) :=
  match r.hashObject with
  | none => []
  | some out =>
    (addIdx.zip (linesOf out)).foldl (fun m p =>
      let hsh := trimL p.2
      if hsh ≠ [] then ainsert m p.1 hsh else m) []

/-- The reverse `hash → del index` map, keeping the first binding per hash
(`status.rs:195`). -/
def buildHashToDel (headHash : List (Nat × Str)) : List (Str × Nat) :=
  headHash.foldl (fun m p => aorInsert m p.2 p.1) []

/-- The greedy matching loop of `detect_unstaged_renames` (`status.rs:204`):
returns (matched del indices, rename pairs (add idx, del idx)); a del index
is consumed at most once. -/
def computePairs (workHash : List (Nat × Str)) (hashToDel : List (Str × Nat)) :
    List Nat × List (Nat × Nat) :=
  workHash.foldl (fun acc p =>
    match alookup hashToDel p.2 with
    | some d => if d ∈ acc.1 then acc else (acc.1 ++ [d], acc.2 ++ [(p.1, d)])
    | none => acc) ([], [])

/-- Rewrite the matched add entries into rename entries (`status.rs:218`);
positions are threaded from `start`. -/
def applyAux (orig : List GitStatusEntry) (pairs : List (Nat × Nat)) :
    Nat → List GitStatusEntry → List GitStatusEntry
  | _, [] => []
  | i, e :: rest =>
    (match pairs.find? (fun pr => pr.1 = i) with
     | some pr =>
       { e with status := "R ".data
                oldPath := some ((orig.getD pr.2 dfltEntry).path) }
     | none => e) :: applyAux orig pairs (i + 1) rest

/-- Drop the entries whose index is in the removal set (`status.rs:224`). -/
def removeAux (idxs : List Nat) : Nat → List GitStatusEntry → List GitStatusEntry
  | _, [] => []
  | i, e :: rest =>
    if i ∈ idxs then removeAux idxs (i + 1) rest
    else e :: removeAux idxs (i + 1) rest

/-- Model of `detect_unstaged_renames` (`status.rs:112`): collect deleted
and added/untracked entries, hash them, match adds to deletes by identical
blob hash (each delete consumed once), rewrite matched adds into `R `
entries carrying the deleted path, and drop the matched delete entries. -/
def detectUnstagedRenames (r : Repo) (entries : List GitStatusEntry) :
    List GitStatusEntry :=
  let delIdx := delIndices entries
  let addIdx := addIndices entries
  if delIdx = [] ∨ addIdx = [] then entries
  else
    let headHash := computeHeadHash r entries delIdx
    if headHash = [] then entries
    else
      let workHash := computeWorkHash r entries addIdx
      let hashToDel := buildHashToDel headHash
      let md := computePairs workHash hashToDel
      if md.2 = [] then entries
      else removeAux md.1 0 (applyAux entries md.2 0 entries)

/-- Status list with two identical added files and one deleted file whose
HEAD content matches both. -/
def c3Entries : List GitStatusEntry :=
  [{ status := "??".data, path := "a1".data, oldPath := none },
   { status := "??".data, path := "a2".data, oldPath := none },
   { status := " D".data, path := "d".data, oldPath := none }]

/-- Repository whose `ls-tree` reports hash `h` for the deleted path `d`
and whose `hash-object` reports hash `h` for both added paths. -/
def c3Repo : Repo :=
  { repoPath := "/r".data
    isWorktree := true
    revResolvable := fun _ => false
    amApplying := false
    unmergedFiles := []
    statusZ := some (true, [])
    lsFilesU := some (true, [])
    showBytes := fun _ _ => []
    existsAtRev := fun _ _ => false
    diffTheirs := fun _ => none
    workRead := fun _ => ReadRes.notFound
    run := fun _ => none
    lsTreeHead := some ("100644 blob h\td".data)
    hashObject := some ("h\nh".data)
    fsExists := fun _ => false }

/-- C3 counterexample: the claim says every added/untracked entry whose
content hash equals the HEAD hash of some deleted entry is rewritten into a
rename; here both `a1` and `a2` carry hash `h`, matching the deleted `d`,
yet only `a1` becomes a rename — `a2` stays an untracked add because the
single deleted entry is consumed by the first match. -/
theorem status_rename_duplicate_add_counterexample :
    detectUnstagedRenames c3Repo c3Entries =
      [{ status := "R ".data, path := "a1".data, oldPath := some ("d".data) },
       { status := "??".data, path := "a2".data, oldPath := none }] ∧
    (1, "h".data) ∈ computeWorkHash c3Repo c3Entries (addIndices c3Entries) ∧
    (2, "h".data) ∈ computeHeadHash c3Repo c3Entries (delIndices c3Entries) := by
  decide

/-- A successful lookup locates a pair in the list. -/
theorem alookup_mem [DecidableEq κ] (m : List (κ × α)) (k : κ) (v : α)
    (h : alookup m k = some v) : (k, v) ∈ m := by
  unfold alookup at h
  cases hf : m.find? (fun kv => kv.1 = k) with
  | none => rw [hf] at h; cases h
  | some kv =>
    rw [hf] at h
    have hm := List.mem_of_find?_eq_some hf
    have hk : kv.1 = k := by
      have := List.find?_some hf
      simpa using this
    simp at h
    rw [← h, ← hk]
    exact hm

/-- Membership after a replacing insert. -/
theorem mem_ainsert [DecidableEq κ] (m : List (κ × α)) (k : κ) (v : α)
    (x : κ × α) (h : x ∈ ainsert m k v) : x ∈ m ∨ x = (k, v) := by
  unfold ainsert at h
  by_cases hf : (m.find? (fun kv => kv.1 = k)).isSome
  · rw [if_pos hf] at h
    obtain ⟨y, hy, hxy⟩ := List.mem_map.mp h
    by_cases hyk : y.1 = k
    · right; rw [← hxy]; simp [hyk]
    · left; rw [← hxy]; simpa [hyk] using hy
  · rw [if_neg hf] at h
    rcases List.mem_append.mp h with h | h
    · exact Or.inl h
    · right; simpa using h
/-- Membership after a keep-first insert. -/
theorem mem_aorInsert [DecidableEq κ] (m : List (κ × α)) (k : κ) (v : α)
    (x : κ × α) (h : x ∈ aorInsert m k v) : x ∈ m ∨ x = (k, v) := by
  unfold aorInsert at h
  by_cases hf : (m.find? (fun kv => kv.1 = k)).isSome
  · rw [if_pos hf] at h; exact Or.inl h
  · rw [if_neg hf] at h
    rcases List.mem_append.mp h with h | h
    · exact Or.inl h
    · right; simpa using h

/-- A replacing insert preserves distinctness of the keys. -/
theorem ainsert_keys_nodup [DecidableEq κ] (m : List (κ × α)) (k : κ) (v : α)
    (h : (m.map Prod.fst).Nodup) : ((ainsert m k v).map Prod.fst).Nodup := by
  unfold ainsert
  by_cases hf : (m.find? (fun kv => kv.1 = k)).isSome
  · rw [if_pos hf]
    have : (m.map (fun kv => if kv.1 = k then (k, v) else kv)).map Prod.fst =
        m.map Prod.fst := by
      rw [List.map_map]
      apply List.map_congr_left
      intro kv _
      by_cases hk : kv.1 = k <;> simp [hk]
    rw [this]
    exact h
  · rw [if_neg hf]
    rw [List.map_append]
    simp only [List.map_cons, List.map_nil]
    rw [List.nodup_append]
    refine ⟨h, List.nodup_singleton k, ?_⟩
    intro a ha hb
    simp only [List.mem_singleton] at hb
    subst hb
    obtain ⟨kv, hkv, hkvk⟩ := List.mem_map.mp ha
    rw [List.find?_isSome] at hf
    push_neg at hf
    exact hf kv hkv (by simp [hkvk])

/-- With distinct keys, a key determines its value. -/
theorem nodup_keys_unique [DecidableEq κ] (m : List (κ × α)) (k : κ) (v1 v2 : α)
    (hn : (m.map Prod.fst).Nodup) (h1 : (k, v1) ∈ m) (h2 : (k, v2) ∈ m) :
    v1 = v2 := by
  induction m with
  | nil => simp at h1
  | cons x t ih =>
    simp only [List.map_cons, List.nodup_cons] at hn
    rcases List.mem_cons.mp h1 with h1 | h1 <;> rcases List.mem_cons.mp h2 with h2 | h2
    · have h12 := h1.trans h2.symm
      exact congrArg Prod.snd h12
    · exfalso
      apply hn.1
      rw [← h1]
      exact List.mem_map.mpr ⟨(k, v2), h2, rfl⟩
    · exfalso
      apply hn.1
      rw [← h2]
      exact List.mem_map.mpr ⟨(k, v1), h1, rfl⟩
    · exact ih hn.2 h1 h2

/-- Every binding in the head-hash map is keyed by a del index. -/
theorem computeHeadHash_keys (r : Repo) (entries : List GitStatusEntry)
    (delIdx : List Nat) (x : Nat × Str)
    (h : x ∈ computeHeadHash r entries delIdx) : x.1 ∈ delIdx := by
  unfold computeHeadHash at h
  cases hl : r.lsTreeHead with
  | none => rw [hl] at h; simp at h
  | some out =>
    rw [hl] at h
    suffices hstep : ∀ (lines : List Str) (acc : List (Nat × Str)),
        (∀ y ∈ acc, y.1 ∈ delIdx) →
        x ∈ lines.foldl (fun m line =>
          match parseLsTreeLine line with
          | none => m
          | some ph =>
            delIdx.foldl (fun m2 idx =>
              if (entries.getD idx dfltEntry).path = ph.1 then ainsert m2 idx ph.2
              else m2) m) acc → x.1 ∈ delIdx by
      exact hstep _ [] (by simp) h
    intro lines
    induction lines with
    | nil => intro acc hacc hx; exact hacc x hx
    | cons line rest ih =>
      intro acc hacc hx
      rw [List.foldl_cons] at hx
      refine ih _ ?_ hx
      cases hp : parseLsTreeLine line with
      | none => simpa [hp] using hacc
      | some ph =>
        simp only [hp]
        suffices hinner : ∀ (ds : List Nat) (m2 : List (Nat × Str)),
            (∀ y ∈ m2, y.1 ∈ delIdx) → (∀ i ∈ ds, i ∈ delIdx) →
            ∀ y ∈ ds.foldl (fun m2 idx =>
              if (entries.getD idx dfltEntry).path = ph.1 then ainsert m2 idx ph.2
              else m2) m2, y.1 ∈ delIdx by
          exact hinner delIdx acc hacc (fun i hi => hi)
        intro ds
        induction ds with
        | nil => intro m2 hm2 _ y hy; exact hm2 y hy
        | cons i ds' ih2 =>
          intro m2 hm2 hds y hy
          rw [List.foldl_cons] at hy
          refine ih2 _ ?_ (fun j hj => hds j (List.mem_cons_of_mem i hj)) y hy
          intro z hz
          by_cases hpath : (entries.getD i dfltEntry).path = ph.1
          · rw [if_pos hpath] at hz
            rcases mem_ainsert _ _ _ _ hz with hz | hz
            · exact hm2 z hz
            · rw [hz]; exact hds i (List.mem_cons_self i ds')
          · rw [if_neg hpath] at hz
            exact hm2 z hz

/-- The head-hash map has distinct keys. -/
theorem computeHeadHash_nodup (r : Repo) (entries : List GitStatusEntry)
    (delIdx : List Nat) :
    ((computeHeadHash r entries delIdx).map Prod.fst).Nodup := by
  unfold computeHeadHash
  cases hl : r.lsTreeHead with
  | none => simp
  | some out =>
    suffices hstep : ∀ (lines : List Str) (acc : List (Nat × Str)),
        (acc.map Prod.fst).Nodup →
        ((lines.foldl (fun m line =>
          match parseLsTreeLine line with
          | none => m
          | some ph =>
            delIdx.foldl (fun m2 idx =>
              if (entries.getD idx dfltEntry).path = ph.1 then ainsert m2 idx ph.2
              else m2) m) acc).map Prod.fst).Nodup by
      exact hstep _ [] (by simp)
    intro lines
    induction lines with
    | nil => intro acc hacc; exact hacc
    | cons line rest ih =>
      intro acc hacc
      rw [List.foldl_cons]
      refine ih _ ?_
      cases hp : parseLsTreeLine line with
      | none => exact hacc
      | some ph =>
        simp only
        suffices hinner : ∀ (ds : List Nat) (m2 : List (Nat × Str)),
            (m2.map Prod.fst).Nodup →
            ((ds.foldl (fun m2 idx =>
              if (entries.getD idx dfltEntry).path = ph.1 then ainsert m2 idx ph.2
              else m2) m2).map Prod.fst).Nodup by
          exact hinner delIdx acc hacc
        intro ds
        induction ds with
        | nil => intro m2 hm2; exact hm2
        | cons i ds' ih2 =>
          intro m2 hm2
          rw [List.foldl_cons]
          refine ih2 _ ?_
          by_cases hpath : (entries.getD i dfltEntry).path = ph.1
          · rw [if_pos hpath]; exact ainsert_keys_nodup _ _ _ hm2
          · rw [if_neg hpath]; exact hm2

/-- Every binding in the work-hash map is keyed by an add index. -/
theorem computeWorkHash_keys (r : Repo) (entries : List GitStatusEntry)
    (addIdx : List Nat) (x : Nat × Str)
    (h : x ∈ computeWorkHash r entries addIdx) : x.1 ∈ addIdx := by
  unfold computeWorkHash at h
  cases hl : r.hashObject with
  | none => rw [hl] at h; simp at h
  | some out =>
    rw [hl] at h
    suffices hstep : ∀ (zs : List (Nat × Str)) (acc : List (Nat × Str)),
        (∀ y ∈ acc, y.1 ∈ addIdx) → (∀ p ∈ zs, p.1 ∈ addIdx) →
        x ∈ zs.foldl (fun m p =>
          let hsh := trimL p.2
          if hsh ≠ [] then ainsert m p.1 hsh else m) acc → x.1 ∈ addIdx by
      refine hstep _ [] (by simp) ?_ h
      intro p hp
      exact (List.mem_zip hp).1
    intro zs
    induction zs with
    | nil => intro acc hacc _ hx; exact hacc x hx
    | cons p rest ih =>
      intro acc hacc hzs hx
      rw [List.foldl_cons] at hx
      refine ih _ ?_ (fun q hq => hzs q (List.mem_cons_of_mem p hq)) hx
      intro z hz
      by_cases hne : trimL p.2 ≠ []
      · simp only [if_pos hne] at hz
        rcases mem_ainsert _ _ _ _ hz with hz | hz
        · exact hacc z hz
        · rw [hz]; exact hzs p (List.mem_cons_self p rest)
      · simp only [if_neg hne] at hz
        exact hacc z hz

/-- The work-hash map has distinct keys. -/
theorem computeWorkHash_nodup (r : Repo) (entries : List GitStatusEntry)
    (addIdx : List Nat) :
    ((computeWorkHash r entries addIdx).map Prod.fst).Nodup := by
  unfold computeWorkHash
  cases hl : r.hashObject with
  | none => simp
  | some out =>
    suffices hstep : ∀ (zs : List (Nat × Str)) (acc : List (Nat × Str)),
        (acc.map Prod.fst).Nodup →
        ((zs.foldl (fun m p =>
          let hsh := trimL p.2
          if hsh ≠ [] then ainsert m p.1 hsh else m) acc).map Prod.fst).Nodup by
      exact hstep _ [] (by simp)
    intro zs
    induction zs with
    | nil => intro acc hacc; exact hacc
    | cons p rest ih =>
      intro acc hacc
      rw [List.foldl_cons]
      refine ih _ ?_
      by_cases hne : trimL p.2 ≠ []
      · simp only [if_pos hne]; exact ainsert_keys_nodup _ _ _ hacc
      · simp only [if_neg hne]; exact hacc

/-- Every binding of the reverse map comes from a head-hash binding. -/
theorem buildHashToDel_mem (headHash : List (Nat × Str)) (y : Str × Nat)
    (h : y ∈ buildHashToDel headHash) : (y.2, y.1) ∈ headHash := by
  unfold buildHashToDel at h
  suffices hstep : ∀ (l : List (Nat × Str)) (acc : List (Str × Nat)),
      (∀ z ∈ acc, (z.2, z.1) ∈ headHash) → (∀ p ∈ l, p ∈ headHash) →
      y ∈ l.foldl (fun m p => aorInsert m p.2 p.1) acc → (y.2, y.1) ∈ headHash by
    exact hstep headHash [] (by simp) (fun p hp => hp) h
  intro l
  induction l with
  | nil => intro acc hacc _ hy; exact hacc y hy
  | cons p rest ih =>
    intro acc hacc hl hy
    rw [List.foldl_cons] at hy
    refine ih _ ?_ (fun q hq => hl q (List.mem_cons_of_mem p hq)) hy
    intro z hz
    rcases mem_aorInsert _ _ _ _ hz with hz | hz
    · exact hacc z hz
    · rw [hz]; exact hl p (List.mem_cons_self p rest)

/-- Short name for the matching fold's step function. -/
def pairStep (hashToDel : List (Str × Nat)) (acc : List Nat × List (Nat × Nat))
    (p : Nat × Str) : List Nat × List (Nat × Nat) :=
  match alookup hashToDel p.2 with
  | some d => if d ∈ acc.1 then acc else (acc.1 ++ [d], acc.2 ++ [(p.1, d)])
  | none => acc

/-- `computePairs` is the fold of `pairStep`. -/
theorem computePairs_eq (workHash : List (Nat × Str)) (hashToDel : List (Str × Nat)) :
    computePairs workHash hashToDel = workHash.foldl (pairStep hashToDel) ([], []) :=
  rfl

/-- `pairStep` when the hash has no del index. -/
theorem pairStep_none (htd : List (Str × Nat)) (acc : List Nat × List (Nat × Nat))
    (p : Nat × Str) (hl : alookup htd p.2 = none) : pairStep htd acc p = acc := by
  unfold pairStep
  rw [hl]

/-- `pairStep` when the del index was already consumed. -/
theorem pairStep_hit (htd : List (Str × Nat)) (acc : List Nat × List (Nat × Nat))
    (p : Nat × Str) (d : Nat) (hl : alookup htd p.2 = some d) (hd : d ∈ acc.1) :
    pairStep htd acc p = acc := by
  unfold pairStep
  rw [hl]
  show (if d ∈ acc.1 then acc else (acc.1 ++ [d], acc.2 ++ [(p.1, d)])) = acc
  rw [if_pos hd]

/-- `pairStep` when a fresh del index is matched. -/
theorem pairStep_new (htd : List (Str × Nat)) (acc : List Nat × List (Nat × Nat))
    (p : Nat × Str) (d : Nat) (hl : alookup htd p.2 = some d) (hd : d ∉ acc.1) :
    pairStep htd acc p = (acc.1 ++ [d], acc.2 ++ [(p.1, d)]) := by
  unfold pairStep
  rw [hl]
  show (if d ∈ acc.1 then acc else (acc.1 ++ [d], acc.2 ++ [(p.1, d)])) = _
  rw [if_neg hd]

/-- Pairs already accumulated survive the fold. -/
theorem pairStep_mono (htd : List (Str × Nat)) (work : List (Nat × Str)) :
    ∀ acc x, x ∈ acc.2 → x ∈ (work.foldl (pairStep htd) acc).2 := by
  induction work with
  | nil => intro acc x hx; exact hx
  | cons p rest ih =>
    intro acc x hx
    rw [List.foldl_cons]
    refine ih _ x ?_
    unfold pairStep
    cases alookup htd p.2 with
    | none => exact hx
    | some d =>
      by_cases hd : d ∈ acc.1
      · simp only [if_pos hd]; exact hx
      · simp only [if_neg hd]; exact List.mem_append_left _ hx

/-- The matched list tracks the second components of the pair list. -/
theorem pairStep_matched (htd : List (Str × Nat)) (work : List (Nat × Str)) :
    ∀ acc, acc.1 = acc.2.map Prod.snd →
      (work.foldl (pairStep htd) acc).1 =
        (work.foldl (pairStep htd) acc).2.map Prod.snd := by
  induction work with
  | nil => intro acc h; exact h
  | cons p rest ih =>
    intro acc h
    rw [List.foldl_cons]
    cases hl : alookup htd p.2 with
    | none =>
      rw [pairStep_none htd acc p hl]
      exact ih _ h
    | some d =>
      by_cases hd : d ∈ acc.1
      · rw [pairStep_hit htd acc p d hl hd]
        exact ih _ h
      · rw [pairStep_new htd acc p d hl hd]
        refine ih _ ?_
        simp only [List.map_append, List.map_cons, List.map_nil, h]

/-- Any produced pair comes from a successful lookup of a work-hash
binding. -/
theorem pairStep_sound (htd : List (Str × Nat)) (work : List (Nat × Str)) :
    ∀ acc a d, (a, d) ∈ (work.foldl (pairStep htd) acc).2 →
      (a, d) ∈ acc.2 ∨ ∃ h, (a, h) ∈ work ∧ alookup htd h = some d := by
  induction work with
  | nil => intro acc a d h; exact Or.inl h
  | cons p rest ih =>
    intro acc a d h
    rw [List.foldl_cons] at h
    cases hl : alookup htd p.2 with
    | none =>
      rw [pairStep_none htd acc p hl] at h
      rcases ih _ a d h with h2 | h2
      · exact Or.inl h2
      · obtain ⟨hh, hmem, hlk⟩ := h2
        exact Or.inr ⟨hh, List.mem_cons_of_mem p hmem, hlk⟩
    | some d0 =>
      by_cases hd : d0 ∈ acc.1
      · rw [pairStep_hit htd acc p d0 hl hd] at h
        rcases ih _ a d h with h2 | h2
        · exact Or.inl h2
        · obtain ⟨hh, hmem, hlk⟩ := h2
          exact Or.inr ⟨hh, List.mem_cons_of_mem p hmem, hlk⟩
      · rw [pairStep_new htd acc p d0 hl hd] at h
        rcases ih _ a d h with h2 | h2
        · rcases List.mem_append.mp h2 with h2 | h2
          · exact Or.inl h2
          · simp only [List.mem_singleton, Prod.mk.injEq] at h2
            right
            refine ⟨p.2, ?_, ?_⟩
            · rw [h2.1, Prod.mk.eta]
              exact List.mem_cons_self p rest
            · rw [h2.2]
              exact hl
        · obtain ⟨hh, hmem, hlk⟩ := h2
          exact Or.inr ⟨hh, List.mem_cons_of_mem p hmem, hlk⟩

/-- Completeness of the greedy matching: with distinct work hashes and an
injective reverse map, every work binding whose hash has a del index not
yet consumed produces its pair. -/
theorem pairStep_complete (htd : List (Str × Nat))
    (hinj : ∀ h1 h2 d, alookup htd h1 = some d → alookup htd h2 = some d → h1 = h2)
    (work : List (Nat × Str)) :
    ∀ acc a h d, (work.map Prod.snd).Nodup → (a, h) ∈ work →
      alookup htd h = some d → d ∉ acc.1 →
      (a, d) ∈ (work.foldl (pairStep htd) acc).2 := by
  induction work with
  | nil => intro acc a h d _ hmem; simp at hmem
  | cons p rest ih =>
    intro acc a h d hnd hmem hlk hnotin
    simp only [List.map_cons, List.nodup_cons] at hnd
    rw [List.foldl_cons]
    rcases List.mem_cons.mp hmem with hmem | hmem
    · have hp2 : alookup htd p.2 = some d := by
        rw [show p.2 = h from congrArg Prod.snd hmem.symm]
        exact hlk
      have ha1 : p.1 = a := congrArg Prod.fst hmem.symm
      rw [pairStep_new htd acc p d hp2 hnotin, ha1]
      exact pairStep_mono htd rest _ _ (List.mem_append_right _ (by simp))
    · refine ih _ a h d hnd.2 hmem hlk ?_
      cases hl0 : alookup htd p.2 with
      | none =>
        rw [pairStep_none htd acc p hl0]
        exact hnotin
      | some d0 =>
        by_cases hd0 : d0 ∈ acc.1
        · rw [pairStep_hit htd acc p d0 hl0 hd0]
          exact hnotin
        · rw [pairStep_new htd acc p d0 hl0 hd0]
          intro hcon
          rcases List.mem_append.mp hcon with hcon | hcon
          · exact hnotin hcon
          · simp only [List.mem_singleton] at hcon
            subst hcon
            have heq := hinj h p.2 d hlk hl0
            apply hnd.1
            rw [← heq]
            exact List.mem_map.mpr ⟨(a, h), hmem, rfl⟩

/-- `aorInsert` preserves and creates lookup success. -/
theorem alookup_isSome_aorInsert [DecidableEq κ] (m : List (κ × α)) (k k2 : κ)
    (v : α) (h : (alookup m k2).isSome ∨ k2 = k) :
    (alookup (aorInsert m k v) k2).isSome := by
  unfold aorInsert
  by_cases hf : (m.find? (fun kv => kv.1 = k)).isSome
  · rw [if_pos hf]
    rcases h with h | h
    · exact h
    · rw [h]
      unfold alookup
      cases hff : m.find? (fun kv => kv.1 = k) with
      | none => rw [hff] at hf; cases hf
      | some kv => rfl
  · rw [if_neg hf]
    unfold alookup
    rw [List.find?_append]
    rcases h with h | h
    · unfold alookup at h
      cases hff : m.find? (fun kv => kv.1 = k2) with
      | none => rw [hff] at h; cases h
      | some kv => rfl
    · rw [h]
      have hnone : m.find? (fun kv => kv.1 = k) = none := by
        cases hff : m.find? (fun kv => kv.1 = k) with
        | none => rfl
        | some kv => rw [hff] at hf; exact absurd rfl hf
      rw [hnone]
      simp [Option.or]

/-- Folding `aorInsert` over a list makes every listed hash a key. -/
theorem fold_aorInsert_isSome :
    ∀ (l : List (Nat × Str)) (acc : List (Str × Nat)) (d : Nat) (h : Str),
      ((d, h) ∈ l ∨ (alookup acc h).isSome) →
      (alookup (l.foldl (fun m p => aorInsert m p.2 p.1) acc) h).isSome := by
  intro l
  induction l with
  | nil =>
    intro acc d h hh
    rcases hh with hh | hh
    · cases hh
    · exact hh
  | cons p rest ih =>
    intro acc d h hh
    rw [List.foldl_cons]
    refine ih _ d h ?_
    rcases hh with hh | hh
    · rcases List.mem_cons.mp hh with hh | hh
      · right
        refine alookup_isSome_aorInsert acc p.2 h p.1 (Or.inr ?_)
        exact congrArg Prod.snd hh
      · exact Or.inl hh
    · exact Or.inr (alookup_isSome_aorInsert acc p.2 h p.1 (Or.inl hh))

/-- Every head-hash value is a key of the reverse map. -/
theorem buildHashToDel_lookup (headHash : List (Nat × Str)) (d : Nat) (h : Str)
    (hmem : (d, h) ∈ headHash) :
    ∃ d2, alookup (buildHashToDel headHash) h = some d2 := by
  have := fold_aorInsert_isSome headHash [] d h (Or.inl hmem)
  exact Option.isSome_iff_exists.mp this

/-- The produced pairs have distinct add indices when the work keys are
distinct and disjoint from the accumulator keys. -/
theorem pairStep_keys_nodup (htd : List (Str × Nat)) (work : List (Nat × Str)) :
    ∀ acc, ((acc.2.map Prod.fst) ++ work.map Prod.fst).Nodup →
      (((work.foldl (pairStep htd) acc).2).map Prod.fst).Nodup := by
  induction work with
  | nil =>
    intro acc h
    simpa using h
  | cons p rest ih =>
    intro acc h
    rw [List.foldl_cons]
    cases hl : alookup htd p.2 with
    | none =>
      rw [pairStep_none htd acc p hl]
      refine ih _ ?_
      refine List.Nodup.sublist ?_ h
      exact List.Sublist.append_left (List.sublist_cons_self _ _) _
    | some d =>
      by_cases hd : d ∈ acc.1
      · rw [pairStep_hit htd acc p d hl hd]
        refine ih _ ?_
        refine List.Nodup.sublist ?_ h
        exact List.Sublist.append_left (List.sublist_cons_self _ _) _
      · rw [pairStep_new htd acc p d hl hd]
        refine ih _ ?_
        simp only [List.map_append, List.map_cons, List.map_nil, List.map_cons] at h ⊢
        rw [List.append_assoc, List.singleton_append]
        exact h

/-- `find?` retrieves a binding of a key-distinct association list. -/
theorem find_of_mem_nodup [DecidableEq κ] (m : List (κ × α)) (k : κ) (v : α)
    (hmem : (k, v) ∈ m) (hnd : (m.map Prod.fst).Nodup) :
    m.find? (fun kv => kv.1 = k) = some (k, v) := by
  induction m with
  | nil => cases hmem
  | cons x t ih =>
    simp only [List.map_cons, List.nodup_cons] at hnd
    rcases List.mem_cons.mp hmem with h | h
    · rw [← h]
      rw [List.find?_cons_of_pos _ (by simp)]
    · have hx : ¬((fun kv => decide (kv.1 = k)) x = true) := by
        simp only [decide_eq_true_eq]
        intro he
        apply hnd.1
        rw [he]
        exact List.mem_map.mpr ⟨(k, v), h, rfl⟩
      rw [List.find?_cons_of_neg t hx]
      exact ih h hnd.2

/-- A filtered index points to an entry satisfying the predicate. -/
theorem idxFilter_mem (p : GitStatusEntry → Bool) :
    ∀ (l : List GitStatusEntry) (i j : Nat), j ∈ idxFilter p i l →
      ∃ k, j = i + k ∧ k < l.length ∧ p (l.getD k dfltEntry) = true := by
  intro l
  induction l with
  | nil =>
    intro i j h
    cases h
  | cons e rest ih =>
    intro i j h
    rw [show idxFilter p i (e :: rest) =
        (if p e then i :: idxFilter p (i + 1) rest else idxFilter p (i + 1) rest)
        from rfl] at h
    by_cases hp : p e
    · rw [if_pos hp] at h
      rcases List.mem_cons.mp h with h | h
      · exact ⟨0, by omega, by simp, by simpa using hp⟩
      · obtain ⟨k, hk1, hk2, hk3⟩ := ih (i + 1) j h
        refine ⟨k + 1, by omega, by simp only [List.length_cons]; omega, ?_⟩
        simpa using hk3
    · rw [if_neg hp] at h
      obtain ⟨k, hk1, hk2, hk3⟩ := ih (i + 1) j h
      refine ⟨k + 1, by omega, by simp only [List.length_cons]; omega, ?_⟩
      simpa using hk3

/-- An entry at a matched-add position survives the removal pass rewritten
as a rename carrying the deleted path. -/
theorem remove_apply_mem (orig : List GitStatusEntry) (pairs : List (Nat × Nat))
    (matched : List Nat) :
    ∀ (l : List GitStatusEntry) (i k : Nat) (pr : Nat × Nat),
      k < l.length → (i + k) ∉ matched →
      pairs.find? (fun q => q.1 = (i + k)) = some pr →
      { l.getD k dfltEntry with
          status := "R ".data
          oldPath := some ((orig.getD pr.2 dfltEntry).path) }
        ∈ removeAux matched i (applyAux orig pairs i l) := by
  intro l
  induction l with
  | nil =>
    intro i k pr hk
    simp at hk
  | cons e rest ih =>
    intro i k pr hk hnm hf
    rw [show applyAux orig pairs i (e :: rest) =
        (match pairs.find? (fun q => q.1 = i) with
         | some pr2 =>
           ({ e with status := "R ".data, oldPath := some ((orig.getD pr2.2 dfltEntry).path) })
         | none => e) :: applyAux orig pairs (i + 1) rest from rfl]
    cases k with
    | zero =>
      simp only [Nat.add_zero] at hnm hf
      simp only [hf]
      rw [show removeAux matched i
          (({ e with status := "R ".data, oldPath := some ((orig.getD pr.2 dfltEntry).path) }) ::
            applyAux orig pairs (i + 1) rest) =
          (if i ∈ matched then
            removeAux matched (i + 1) (applyAux orig pairs (i + 1) rest)
          else
            ({ e with status := "R ".data, oldPath := some ((orig.getD pr.2 dfltEntry).path) }) ::
              removeAux matched (i + 1) (applyAux orig pairs (i + 1) rest))
          from rfl]
      rw [if_neg hnm]
      exact List.mem_cons_self _ _
    | succ k2 =>
      have harith : i + (k2 + 1) = (i + 1) + k2 := by omega
      rw [harith] at hnm hf
      have htail := ih (i + 1) k2 pr (by simpa using hk) hnm hf
      cases hfh : pairs.find? (fun q => q.1 = i) with
      | some pr2 =>
        simp only [hfh]
        rw [show removeAux matched i
            (({ e with status := "R ".data, oldPath := some ((orig.getD pr2.2 dfltEntry).path) }) ::
              applyAux orig pairs (i + 1) rest) =
            (if i ∈ matched then
              removeAux matched (i + 1) (applyAux orig pairs (i + 1) rest)
            else
              ({ e with status := "R ".data, oldPath := some ((orig.getD pr2.2 dfltEntry).path) }) ::
                removeAux matched (i + 1) (applyAux orig pairs (i + 1) rest))
            from rfl]
        by_cases hi : i ∈ matched
        · rw [if_pos hi]
          exact htail
        · rw [if_neg hi]
          exact List.mem_cons_of_mem _ htail
      | none =>
        simp only [hfh]
        rw [show removeAux matched i (e :: applyAux orig pairs (i + 1) rest) =
            (if i ∈ matched then
              removeAux matched (i + 1) (applyAux orig pairs (i + 1) rest)
            else e :: removeAux matched (i + 1) (applyAux orig pairs (i + 1) rest))
            from rfl]
        by_cases hi : i ∈ matched
        · rw [if_pos hi]
          exact htail
        · rw [if_neg hi]
          exact List.mem_cons_of_mem _ htail

/-- Every entry surviving the rewrite-and-remove passes originates at an
unmatched position: either unchanged or rewritten into a rename. -/
theorem remove_apply_sound (orig : List GitStatusEntry) (pairs : List (Nat × Nat))
    (matched : List Nat) :
    ∀ (l : List GitStatusEntry) (i : Nat) (x : GitStatusEntry),
      x ∈ removeAux matched i (applyAux orig pairs i l) →
      ∃ k, k < l.length ∧ (i + k) ∉ matched ∧
        (x = l.getD k dfltEntry ∨ x.status = "R ".data) := by
  intro l
  induction l with
  | nil =>
    intro i x h
    cases h
  | cons e rest ih =>
    intro i x h
    rw [show applyAux orig pairs i (e :: rest) =
        (match pairs.find? (fun q => q.1 = i) with
         | some pr2 =>
           ({ e with status := "R ".data, oldPath := some ((orig.getD pr2.2 dfltEntry).path) })
         | none => e) :: applyAux orig pairs (i + 1) rest from rfl] at h
    cases hfh : pairs.find? (fun q => q.1 = i) with
    | some pr2 =>
      simp only [hfh] at h
      rw [show removeAux matched i
          (({ e with status := "R ".data, oldPath := some ((orig.getD pr2.2 dfltEntry).path) }) ::
            applyAux orig pairs (i + 1) rest) =
          (if i ∈ matched then
            removeAux matched (i + 1) (applyAux orig pairs (i + 1) rest)
          else
            ({ e with status := "R ".data, oldPath := some ((orig.getD pr2.2 dfltEntry).path) }) ::
              removeAux matched (i + 1) (applyAux orig pairs (i + 1) rest))
          from rfl] at h
      by_cases hi : i ∈ matched
      · rw [if_pos hi] at h
        obtain ⟨k, hk, hnm, hx⟩ := ih (i + 1) x h
        refine ⟨k + 1, by simp only [List.length_cons]; omega, ?_, ?_⟩
        · rw [show i + (k + 1) = (i + 1) + k from by omega]
          exact hnm
        · simpa using hx
      · rw [if_neg hi] at h
        rcases List.mem_cons.mp h with h | h
        · refine ⟨0, by simp, by simpa using hi, Or.inr ?_⟩
          rw [h]
        · obtain ⟨k, hk, hnm, hx⟩ := ih (i + 1) x h
          refine ⟨k + 1, by simp only [List.length_cons]; omega, ?_, ?_⟩
          · rw [show i + (k + 1) = (i + 1) + k from by omega]
            exact hnm
          · simpa using hx
    | none =>
      simp only [hfh] at h
      rw [show removeAux matched i (e :: applyAux orig pairs (i + 1) rest) =
          (if i ∈ matched then
            removeAux matched (i + 1) (applyAux orig pairs (i + 1) rest)
          else e :: removeAux matched (i + 1) (applyAux orig pairs (i + 1) rest))
          from rfl] at h
      by_cases hi : i ∈ matched
      · rw [if_pos hi] at h
        obtain ⟨k, hk, hnm, hx⟩ := ih (i + 1) x h
        refine ⟨k + 1, by simp only [List.length_cons]; omega, ?_, ?_⟩
        · rw [show i + (k + 1) = (i + 1) + k from by omega]
          exact hnm
        · simpa using hx
      · rw [if_neg hi] at h
        rcases List.mem_cons.mp h with h | h
        · exact ⟨0, by simp, by simpa using hi, Or.inl (by rw [h]; rfl)⟩
        · obtain ⟨k, hk, hnm, hx⟩ := ih (i + 1) x h
          refine ⟨k + 1, by simp only [List.length_cons]; omega, ?_, ?_⟩
          · rw [show i + (k + 1) = (i + 1) + k from by omega]
            exact hnm
          · simpa using hx

/-- C3 (amended): after the secondary reconciliation pass of `git_status`,
when the working-tree content hashes of the added/untracked entries are
pairwise distinct and the add indices are disjoint from the delete indices,
every added/untracked entry whose content hash equals the HEAD blob hash of
some deleted entry is rewritten into a rename entry with status `R ` whose
`old_path` is the path of a deleted entry carrying that same blob hash, and
that matched deleted entry is removed: every entry of the returned list
originates from an index other than the matched delete index, either
unchanged or rewritten as a rename. (The original claim fails when two
added entries share one content hash: only the first add is rewritten,
see the counterexample.) -/
theorem status_rename_reconciliation (r : Repo) (entries : List GitStatusEntry)
    (a d0 : Nat) (hs : Str)
    (hwnd : ((computeWorkHash r entries (addIndices entries)).map Prod.snd).Nodup)
    (hdisj : ∀ i ∈ addIndices entries, i ∉ delIndices entries)
    (hwork : (a, hs) ∈ computeWorkHash r entries (addIndices entries))
    (hhead : (d0, hs) ∈ computeHeadHash r entries (delIndices entries)) :
    ∃ d, (d, hs) ∈ computeHeadHash r entries (delIndices entries) ∧
      ({ status := "R ".data, path := (entries.getD a dfltEntry).path,
         oldPath := some ((entries.getD d dfltEntry).path) } : GitStatusEntry)
        ∈ detectUnstagedRenames r entries ∧
      ∀ x ∈ detectUnstagedRenames r entries, ∃ k, k < entries.length ∧ k ≠ d ∧
        (x = entries.getD k dfltEntry ∨ x.status = "R ".data) := by
  set WH := computeWorkHash r entries (addIndices entries) with hWHdef
  set HH := computeHeadHash r entries (delIndices entries) with hHHdef
  set htd := buildHashToDel HH with htddef
  set MD := computePairs WH htd with hMDdef
  have haA : a ∈ addIndices entries := computeWorkHash_keys r entries _ (a, hs) hwork
  have hd0D : d0 ∈ delIndices entries := computeHeadHash_keys r entries _ (d0, hs) hhead
  obtain ⟨d, hlk⟩ := buildHashToDel_lookup HH d0 hs hhead
  have hdmem : (hs, d) ∈ htd := alookup_mem _ _ _ hlk
  have hdHH : (d, hs) ∈ HH := buildHashToDel_mem _ (hs, d) hdmem
  have hdD : d ∈ delIndices entries := computeHeadHash_keys r entries _ (d, hs) hdHH
  have hinj : ∀ h1 h2 dd, alookup htd h1 = some dd → alookup htd h2 = some dd →
      h1 = h2 := by
    intro h1 h2 dd ha hb
    have hma := buildHashToDel_mem _ (h1, dd) (alookup_mem _ _ _ ha)
    have hmb := buildHashToDel_mem _ (h2, dd) (alookup_mem _ _ _ hb)
    exact nodup_keys_unique _ dd h1 h2 (computeHeadHash_nodup r entries _) hma hmb
  have hpair : (a, d) ∈ MD.2 := by
    rw [hMDdef, computePairs_eq]
    exact pairStep_complete htd hinj WH ([], []) a hs d hwnd hwork hlk (by simp)
  have hmatched : MD.1 = MD.2.map Prod.snd := by
    rw [hMDdef, computePairs_eq]
    exact pairStep_matched htd WH ([], []) rfl
  have hdM : d ∈ MD.1 := by
    rw [hmatched]
    exact List.mem_map.mpr ⟨(a, d), hpair, rfl⟩
  have hMdel : ∀ j ∈ MD.1, j ∈ delIndices entries := by
    intro j hj
    rw [hmatched] at hj
    obtain ⟨q, hq, hq2⟩ := List.mem_map.mp hj
    have hq3 : (q.1, j) ∈ MD.2 := by
      rw [show (q.1, j) = q from by rw [← hq2, Prod.mk.eta]]
      exact hq
    rw [hMDdef, computePairs_eq] at hq3
    rcases pairStep_sound htd WH ([], []) q.1 j hq3 with hc | hc
    · cases hc
    · obtain ⟨hh0, _, hlk0⟩ := hc
      have hm0 := buildHashToDel_mem _ (hh0, j) (alookup_mem _ _ _ hlk0)
      exact computeHeadHash_keys r entries _ (j, hh0) hm0
  have haM : a ∉ MD.1 := fun hc => hdisj a haA (hMdel a hc)
  obtain ⟨k, hk1, hk2, _⟩ := idxFilter_mem entryIsAdd entries 0 a haA
  have haLen : a < entries.length := by omega
  have hfind : MD.2.find? (fun q => q.1 = a) = some (a, d) := by
    refine find_of_mem_nodup _ a d hpair ?_
    rw [hMDdef, computePairs_eq]
    refine pairStep_keys_nodup htd WH ([], []) ?_
    simpa using computeWorkHash_nodup r entries (addIndices entries)
  have hres : detectUnstagedRenames r entries =
      removeAux MD.1 0 (applyAux entries MD.2 0 entries) := by
    simp only [detectUnstagedRenames]
    rw [← hWHdef, ← hHHdef, ← htddef, ← hMDdef]
    rw [if_neg (not_or.mpr ⟨List.ne_nil_of_mem hd0D, List.ne_nil_of_mem haA⟩)]
    rw [if_neg (List.ne_nil_of_mem hdHH)]
    rw [if_neg (List.ne_nil_of_mem hpair)]
  refine ⟨d, hdHH, ?_, ?_⟩
  · rw [hres]
    have hmem := remove_apply_mem entries MD.2 MD.1 entries 0 a (a, d) haLen
      (by simpa using haM) (by simp only [Nat.zero_add]; exact hfind)
    exact hmem
  · intro x hx
    rw [hres] at hx
    obtain ⟨k2, hk2a, hk2b, hk2c⟩ := remove_apply_sound entries MD.2 MD.1 entries 0 x hx
    refine ⟨k2, hk2a, ?_, hk2c⟩
    intro hkd
    apply hk2b
    rw [Nat.zero_add, hkd]
    exact hdM

/-- Status list with one untracked add and one delete for the amended-claim
witness. -/
def c3wEntries : List GitStatusEntry :=
  [{ status := "??".data, path := "new".data, oldPath := none },
   { status := " D".data, path := "old".data, oldPath := none }]

/-- Repository whose `ls-tree` reports hash `h` for the deleted path `old`
and whose `hash-object` reports hash `h` for the added path. -/
def c3wRepo : Repo :=
  { repoPath := "/r".data
    isWorktree := true
    revResolvable := fun _ => false
    amApplying := false
    unmergedFiles := []
    statusZ := some (true, [])
    lsFilesU := some (true, [])
    showBytes := fun _ _ => []
    existsAtRev := fun _ _ => false
    diffTheirs := fun _ => none
    workRead := fun _ => ReadRes.notFound
    run := fun _ => none
    lsTreeHead := some ("100644 blob h\told".data)
    hashObject := some ("h".data)
    fsExists := fun _ => false }

/-- Witness: a concrete add/delete pair with equal blob hashes is reconciled
into one rename entry. -/
theorem status_rename_reconciliation_witness :
    (((computeWorkHash c3wRepo c3wEntries (addIndices c3wEntries)).map
        Prod.snd).Nodup ∧
     (∀ i ∈ addIndices c3wEntries, i ∉ delIndices c3wEntries) ∧
     (0, "h".data) ∈ computeWorkHash c3wRepo c3wEntries (addIndices c3wEntries) ∧
     (1, "h".data) ∈ computeHeadHash c3wRepo c3wEntries (delIndices c3wEntries)) ∧
    (∃ d, (d, "h".data) ∈ computeHeadHash c3wRepo c3wEntries (delIndices c3wEntries) ∧
      ({ status := "R ".data, path := (c3wEntries.getD 0 dfltEntry).path,
         oldPath := some ((c3wEntries.getD d dfltEntry).path) } : GitStatusEntry)
        ∈ detectUnstagedRenames c3wRepo c3wEntries ∧
      ∀ x ∈ detectUnstagedRenames c3wRepo c3wEntries,
        ∃ k, k < c3wEntries.length ∧ k ≠ d ∧
          (x = c3wEntries.getD k dfltEntry ∨ x.status = "R ".data)) :=
  ⟨⟨by decide, by decide, by decide, by decide⟩,
   status_rename_reconciliation c3wRepo c3wEntries 0 1 ("h".data)
     (by decide) (by decide) (by decide) (by decide)⟩
